import Mathlib

/-! Tar Heel SHell: parsing and pipeline execution.

A shallow embedding of `parse.c`, `jobs.c` and the pipeline section of `thsh.c`.

Representation choices.
* A C string is the list of its characters, the terminating NUL excluded.
* A `char *` that may be `NULL` is an `Option Str`; a string the code stores a
  pointer to is represented by its value at the time of the assignment.
* `commands[i][j]` is a table indexed by the two subscripts the code uses; the
  caller's array has `MAX_PIPELINE` rows and `MAX_ARGS` columns.
* Everything the code asks of the operating system (the directory listing, which
  files exist, whether `fork` and `open` succeed, the verdict of the builtin
  dispatcher) is an explicit argument.
* Loops that call `strtok_r` until it returns `NULL` carry a fuel argument, set
  to one more than the length of the string they consume.
-/

namespace Thsh

/-- A C string: its characters, terminator excluded. -/
abbrev Str := List Char

/-- The macro `MAX_PIPELINE` of `thsh.h`, 32. -/
def MAX_PIPELINE : Nat := 32

/-- The macro `MAX_ARGS` of `thsh.h`, 16. -/
def MAX_ARGS : Nat := 16

/-! ## libc string functions used by the parser -/

/-- The test `strstr(hay, needle) != NULL`: `needle` occurs in `hay` as a
contiguous block. -/
def strstr (hay needle : Str) : Bool :=
  hay.tails.any (fun t => needle.isPrefixOf t)

/-- One call of `strtok_r` on the string `s` (either the string passed in, or the
string the save pointer designates when the first argument is `NULL`).
Leading delimiters are skipped; if nothing is left the call returns `NULL` and
the save pointer designates the empty string.  Otherwise the token is the
longest run of non-delimiters, the delimiter that ends it is overwritten by NUL
and the save pointer designates what follows it.
The result is the token and the string the save pointer designates. -/
def strtok_r (s delim : Str) : Option Str × Str :=
  match s.dropWhile (fun c => decide (c ∈ delim)) with
  | [] => (none, [])
  | c :: cs =>
    (some ((c :: cs).takeWhile (fun x => !decide (x ∈ delim))),
     ((c :: cs).dropWhile (fun x => !decide (x ∈ delim))).drop 1)

/-! ## parse.c -/

/-- The `commands` array, `commands[i][j]`; `none` is a `NULL` cell. -/
abbrev Commands := Nat → Nat → Option Str

/-- The assignment `commands[i][j] = v`. -/
def Commands.set (c : Commands) (i j : Nat) (v : Str) : Commands :=
  fun a b => if a = i ∧ b = j then some v else c a b

/-- The array as `main` resets it before parsing (`thsh.c` lines 71-75): every
cell is `NULL`. -/
def resetCommands : Commands := fun _ _ => none

/-- The function `glob_matches` of `parse.c` (line 86):
`strstr(name, glob) != NULL && name[0] != '.'`. -/
def glob_matches (glob name : Str) : Bool :=
  strstr name glob && name.head? != some '.'

/-- The `while (curr != NULL)` loop of `expand_glob` over the entries that
`readdir` returns, in that order.  State: the array, `*arg_idx`, `found`. -/
def expand_glob_loop (glob : Str) (pipeline_idx : Nat) :
    List Str → Commands → Nat → Nat → Commands × Nat × Nat
  | [], c, arg_idx, found => (c, arg_idx, found)
  | name :: rest, c, arg_idx, found =>
    if glob_matches glob name then
      expand_glob_loop glob pipeline_idx rest (c.set pipeline_idx arg_idx name)
        (arg_idx + 1) (found + 1)
    else
      expand_glob_loop glob pipeline_idx rest c arg_idx found

/-- The function `expand_glob` of `parse.c` (lines 115-134).  `dir` is the listing of the current
directory as `readdir` enumerates it.  The pattern pointer is advanced by one
character (`glob++`) before matching.  Result: the array, the new `*arg_idx`
and the returned count `found`. -/
def expand_glob (dir : List Str) (glob : Str) (c : Commands) (pipeline_idx arg_idx : Nat) :
    Commands × Nat × Nat :=
  expand_glob_loop (glob.drop 1) pipeline_idx dir c arg_idx 0

/-- What `parse_line` leaves behind: its return value, the array and the two
redirection targets. -/
structure Parsed where
  ret : Int
  commands : Commands
  infile : Option Str
  outfile : Option Str

/-- The loop over the argument tokens of stage `i` (`parse.c` lines 211-223).
`command_token` is the current token, `command_ptr` the string the save pointer
designates.  State: the array and `j`. -/
def token_loop (dir : List Str) (i : Nat) :
    Nat → Option Str → Str → Commands → Nat → Commands × Nat
  | 0, _, _, c, j => (c, j)
  | _ + 1, none, _, c, j => (c, j)
  | fuel + 1, some command_token, command_ptr, c, j =>
    let cj : Commands × Nat :=
      if strstr command_token ['*', '.'] then
        let r := expand_glob dir command_token c i j
        if r.2.2 = 0 then (r.1.set i r.2.1 command_token, r.2.1 + 1) else (r.1, r.2.1)
      else (c.set i j command_token, j + 1)
    let next := strtok_r command_ptr [' ', '\n']
    token_loop dir i fuel next.1 next.2 cj.1 cj.2

/-- The loop over the `|`-separated pieces (`parse.c` lines 190-230).
`buffer_token` is the current piece, `buffer_ptr` the string the outer save
pointer designates. -/
def stage_loop (dir : List Str) :
    Nat → Option Str → Str → Nat → Commands → Option Str → Option Str → Parsed
  | 0, _, _, i, c, infile, outfile => ⟨i, c, infile, outfile⟩
  | _ + 1, none, _, i, c, infile, outfile => ⟨i, c, infile, outfile⟩
  | fuel + 1, some buffer_token, buffer_ptr, i, c, infile, outfile =>
    let redir : Bool := strstr buffer_token ['<'] || strstr buffer_token ['>']
    let isIn : Bool := strstr buffer_token ['<']
    let split := strtok_r buffer_token ['<', '>']
    let command : Option Str := if redir then split.1 else none
    let infile1 : Option Str :=
      if redir && isIn then (strtok_r split.2 ['<', ' ', '\n']).1 else infile
    let outfile1 : Option Str :=
      if redir && !isIn then (strtok_r split.2 ['>', ' ', '\n']).1 else outfile
    let text := command.getD buffer_token
    let first := strtok_r text [' ', '\n']
    let ci : Commands × Nat :=
      match first.1 with
      | some _ => ((token_loop dir i (text.length + 1) first.1 first.2 c 0).1, i + 1)
      | none => (c, i)
    let next := strtok_r buffer_ptr ['|']
    stage_loop dir fuel next.1 next.2 ci.2 ci.1 infile1 outfile1

/-- The function `parse_line` of `parse.c` (lines 170-233).  The parameters `length`, `scratch`
and `scratch_len` are never read by the code and are left out; `dir` is the
directory listing `expand_glob` reads. -/
def parse_line (dir : List Str) (inbuf : Str) (commands : Commands)
    (infile outfile : Option Str) : Parsed :=
  let text := inbuf.takeWhile (fun c => c != '#')
  let first := strtok_r text ['|']
  stage_loop dir (text.length + 1) first.1 first.2 0 commands infile outfile

/-! ## Closed forms of the parser loops -/

/-- The non-empty pieces of `s` between delimiters, in order. -/
def tokens (delim s : Str) : List Str :=
  (s.splitOnP (fun c => decide (c ∈ delim))).filter (fun t => !t.isEmpty)

/-- The arguments one token contributes: the matching directory entries when the
token is handed to `expand_glob` and something matches, the token otherwise. -/
def expandToken (dir : List Str) (tok : Str) : List Str :=
  if strstr tok ['*', '.'] then
    if dir.filter (glob_matches (tok.drop 1)) = [] then [tok]
    else dir.filter (glob_matches (tok.drop 1))
  else [tok]

/-- Consecutive assignments `commands[i][j] = x₀`, `commands[i][j+1] = x₁`, ... -/
def writeRow (c : Commands) (i : Nat) : Nat → List Str → Commands
  | _, [] => c
  | j, x :: xs => writeRow (c.set i j x) i (j + 1) xs

/-- Rows written one after the other: `rows[0]` into row `i`, `rows[1]` into row
`i + 1`, and so on, each from column 0. -/
def writeRows (c : Commands) : Nat → List (List Str) → Commands
  | _, [] => c
  | i, r :: rs => writeRows (writeRow c i 0 r) (i + 1) rs

/-- The text of a `|`-piece that is tokenised into arguments (lines 196-208):
the first `<>`-token when the piece has a redirection operator and such a token
exists, the piece itself otherwise. -/
def stageText (seg : Str) : Str :=
  if strstr seg ['<'] || strstr seg ['>'] then (strtok_r seg ['<', '>']).1.getD seg else seg

/-- The arguments the loop body writes for a `|`-piece. -/
def stageArgs (dir : List Str) (seg : Str) : List Str :=
  (tokens [' ', '\n'] (stageText seg)).flatMap (expandToken dir)

/-- The value of `*infile` after the loop body has run on a `|`-piece. -/
def stageInfile (infile : Option Str) (seg : Str) : Option Str :=
  if strstr seg ['<'] then (strtok_r (strtok_r seg ['<', '>']).2 ['<', ' ', '\n']).1
  else infile

/-- The value of `*outfile` after the loop body has run on a `|`-piece. -/
def stageOutfile (outfile : Option Str) (seg : Str) : Option Str :=
  if !strstr seg ['<'] && strstr seg ['>'] then
    (strtok_r (strtok_r seg ['<', '>']).2 ['>', ' ', '\n']).1
  else outfile

/-- The argument rows of a text: one per `|`-piece that yields an argument. -/
def stageRows (dir : List Str) (text : Str) : List (List Str) :=
  ((tokens ['|'] text).map (stageArgs dir)).filter (fun r => !r.isEmpty)

/-- Entry `j` of row `k` of a list of rows, `none` when there is none. -/
def cellOf (rows : List (List Str)) (k j : Nat) : Option Str :=
  (rows[k]?).bind (fun r => r[j]?)

/-! ## The reading of a line that the specification gives -/

/-- The text before the first `#`. -/
def beforeComment (line : Str) : Str :=
  line.takeWhile (fun c => c != '#')

/-- The whitespace-separated tokens of a text, left to right. -/
def words (s : Str) : List Str :=
  (s.splitOnP Char.isWhitespace).filter (fun t => !t.isEmpty)

/-- The `|`-separated segments of the text before the first `#` that contain at
least one token, left to right. -/
def segments (line : Str) : List Str :=
  ((beforeComment line).splitOnP (fun c => c == '|')).filter (fun seg => !(words seg).isEmpty)

/-- Every whitespace character of `s` is a space or a newline. -/
def OnlySpaceNewline (s : Str) : Prop :=
  ∀ c ∈ s, c.isWhitespace = true → c = ' ' ∨ c = '\n'

/-- The names of a directory listing that contain `suffix` as a substring and do
not start with `.`, in the order of the listing. -/
def globNames (listing : List Str) (suffix : Str) : List Str :=
  listing.filter (fun name => decide (suffix <:+: name) && decide (name.head? ≠ some '.'))

/-- The text of a segment to the left of its first redirection operator. -/
def leftOf (seg : Str) : Str :=
  seg.takeWhile (fun c => c != '<' && c != '>')

/-- The text of a segment to the right of its first redirection operator. -/
def rightOf (seg : Str) : Str :=
  (seg.dropWhile (fun c => c != '<' && c != '>')).drop 1

/-- A segment of the form `words op target`: exactly one redirection operator,
at least one word before it and a target token after it. -/
def RedirForm (seg : Str) : Prop :=
  seg.count '<' + seg.count '>' = 1 ∧ words (leftOf seg) ≠ [] ∧ words (rightOf seg) ≠ []

/-! ## jobs.c -/

/-- A system call made by the shell process or by a forked child, with the
arguments that matter here. -/
inductive Action where
  | stat (path : Str)
  | fork
  | dup2 (oldfd newfd : Int)
  | execve (path : Str) (argv : List Str)
  | close (fd : Int)
  | wait
  | handle_builtin (argv : List Str) (stdin stdout : Int)
  deriving DecidableEq

/-- What the code asks of its surroundings while it runs a pipeline.
`found_builtin` is the value `handle_builtin` (of `builtin.c`, which is not part
of the sources at hand) returns for an argument vector; `fork_ok i` says whether
the `fork` of stage `i` creates a child (`fork` returns its pid) or fails
(`fork` returns `-1`). -/
structure World where
  path_table : List Str
  file_exists : Str → Bool
  found_builtin : List Str → Int
  fork_ok : Nat → Bool
  open_ok : Str → Bool

/-- The outcome of one call of `run_command`: the value returned to the shell
process, the system calls the shell process made inside the call, and, when a
child was created, the system calls of the child up to and including `execve`. -/
structure CmdResult where
  ret : Int
  parent : List Action
  child : Option (List Action)
  deriving DecidableEq

/-- Whether a call is a call of the builtin dispatcher. -/
def Action.isBuiltin : Action → Bool
  | Action.handle_builtin _ _ _ => true
  | _ => false

/-- The `for` loop of `run_command` over the path table (`jobs.c` lines 209-238),
ending on `return -2` (line 247) when the table is exhausted.  `done` are the
calls the shell process has made so far. -/
def path_loop (w : World) (forked : Bool) (cmd : Str) (rest : List Str) (stdin stdout : Int) :
    List Str → List Action → CmdResult
  | [], done => ⟨-2, done, none⟩
  | dirp :: more, done =>
    let path := dirp ++ '/' :: cmd
    if w.file_exists path then
      ⟨0, done ++ [Action.stat path, Action.fork, Action.close stdout, Action.wait],
        if forked then
          some [Action.dup2 stdin 0, Action.dup2 stdout 1, Action.execve path (cmd :: rest)]
        else none⟩
    else path_loop w forked cmd rest stdin stdout more (done ++ [Action.stat path])

/-- The function `run_command` of `jobs.c` (lines 182-248), for the argument
vector `cmd :: rest`.  `forked` says whether the `fork` of this call creates a
child.  In both places the shell process takes the `else` branch of
`if (pid == 0)`, also when `fork` has failed, and the child takes the `then`
branch. -/
def run_command (w : World) (forked : Bool) (cmd : Str) (rest : List Str) (stdin stdout : Int) :
    CmdResult :=
  if cmd.head? = some '.' ∨ cmd.head? = some '/' then
    if w.file_exists cmd then
      ⟨0, [Action.stat cmd, Action.fork, Action.wait],
        if forked then some [Action.execve cmd (cmd :: rest)] else none⟩
    else ⟨0, [Action.stat cmd], none⟩
  else
    if w.found_builtin (cmd :: rest) = 0 then
      path_loop w forked cmd rest stdin stdout w.path_table
        [Action.handle_builtin (cmd :: rest) stdin stdout]
    else if w.found_builtin (cmd :: rest) = -1 then
      ⟨-1, [Action.handle_builtin (cmd :: rest) stdin stdout], none⟩
    else ⟨0, [Action.handle_builtin (cmd :: rest) stdin stdout], none⟩

/-! ## thsh.c: the descriptor table of the shell process -/

/-- What an open descriptor refers to. -/
inductive Res where
  | inherited (n : Nat)
  | pipe_read (k : Nat)
  | pipe_write (k : Nat)
  | file (name : Str)
  deriving DecidableEq

/-- The descriptor table of the shell process: slot `n` is what descriptor `n`
refers to, `none` when it is closed. -/
abbrev FdTable := List (Option Res)

/-- What descriptor `fd` refers to, `none` when it is not open. -/
def FdTable.lookup (t : FdTable) (fd : Int) : Option Res :=
  if 0 ≤ fd then t.getD fd.toNat none else none

/-- Slot `n` set to `r`, the table being extended when needed. -/
def FdTable.put (t : FdTable) (n : Nat) (r : Option Res) : FdTable :=
  if n < t.length then t.set n r else t ++ List.replicate (n - t.length) none ++ [r]

/-- The lowest descriptor that is not open. -/
def lowestFree (t : FdTable) : Nat :=
  t.findIdx (fun s => s.isNone)

/-- A new descriptor for `res`: the lowest one that is not open. -/
def sys_alloc (t : FdTable) (res : Res) : FdTable × Int :=
  (t.put (lowestFree t) (some res), (lowestFree t : Int))

/-- The call `pipe(fds)` creating pipe number `k`: the table, `fds[0]` (read
end) and `fds[1]` (write end). -/
def sys_pipe (t : FdTable) (k : Nat) : FdTable × Int × Int :=
  let a := sys_alloc t (Res.pipe_read k)
  let b := sys_alloc a.1 (Res.pipe_write k)
  (b.1, a.2, b.2)

/-- The call `dup(fd)`. -/
def sys_dup (t : FdTable) (fd : Int) : FdTable × Int :=
  match t.lookup fd with
  | some r => sys_alloc t r
  | none => (t, -1)

/-- The call `open(name, ...)`, which succeeds when `ok`. -/
def sys_open (t : FdTable) (name : Str) (ok : Bool) : FdTable × Int :=
  if ok then sys_alloc t (Res.file name) else (t, -1)

/-- The call `close(fd)`. -/
def sys_close (t : FdTable) (fd : Int) : FdTable :=
  if 0 ≤ fd ∧ fd.toNat < t.length then t.set fd.toNat none else t

/-- The call `dup2(oldfd, newfd)`. -/
def sys_dup2 (t : FdTable) (oldfd newfd : Int) : FdTable :=
  match t.lookup oldfd with
  | some r => if 0 ≤ newfd then t.put newfd.toNat (some r) else t
  | none => t

/-- The descriptors that are open, in increasing order. -/
def openFds (t : FdTable) : List Nat :=
  (List.range t.length).filter (fun n => (t.getD n none).isSome)

/-- The effect on the shell's descriptor table of the calls the shell process
makes inside `run_command`: only `close` changes it. -/
def apply_parent (t : FdTable) : List Action → FdTable
  | [] => t
  | Action.close fd :: more => apply_parent (sys_close t fd) more
  | _ :: more => apply_parent t more

/-! ## thsh.c: running one pipeline (lines 101-175) -/

/-- One call of `run_command` made by `main`: the stage, the argument vector
`cmd :: rest`, the two descriptors passed and the outcome. -/
structure StageCall where
  stage : Nat
  cmd : Str
  rest : List Str
  stdin : Int
  stdout : Int
  result : CmdResult
  deriving DecidableEq

/-- The part of the state of `main` that the pipeline section changes: the
descriptor table of the shell process, the variable `ret`, and the calls of
`run_command` made so far. -/
structure Shell where
  fds : FdTable
  ret : Int
  calls : List StageCall

/-- Lines 105-108: `for (i = 0; i < 2 * (pipeline_steps - 1); i += 2) pipe(pipes + i)`.
The first argument counts the iterations left, the second numbers the pipes.
Result: the table and the array `pipes`, where `pipe` has stored the read end
at the even index and the write end at the odd index that follows. -/
def make_pipes (t : FdTable) : Nat → Nat → FdTable × List Int
  | 0, _ => (t, [])
  | n + 1, k =>
    let p := sys_pipe t k
    let more := make_pipes p.1 n (k + 1)
    (more.1, p.2.1 :: p.2.2 :: more.2)

/-- The statement `ret = run_command(parsed_commands[i], stdin, stdout, 0, myhistory)`.
`parsed i` is the argument vector in row `i`, split into its first entry and
the rest.  The builtin dispatcher is taken not to open or close descriptors. -/
def call_run (w : World) (parsed : Nat → Str × List Str) (i : Nat) (stdin stdout : Int)
    (s : Shell) : Shell :=
  let r := run_command w (w.fork_ok i) (parsed i).1 (parsed i).2 stdin stdout
  { fds := apply_parent s.fds r.parent
    ret := r.ret
    calls := s.calls ++ [⟨i, (parsed i).1, (parsed i).2, stdin, stdout, r⟩] }

/-- The body of the stage loop (lines 116-165) for stage `i` of `steps`. -/
def run_stage (w : World) (parsed : Nat → Str × List Str) (steps : Nat) (pipes : List Int)
    (infile outfile : Option Str) (i : Nat) (s : Shell) : Shell :=
  let plain : Shell :=
    call_run w parsed i 0 (if steps = 1 then 1 else pipes.getD 1 (-1)) s
  if i = 0 then
    match infile with
    | some f =>
      let o := sys_open s.fds f (w.open_ok f)
      let s1 := call_run w parsed i o.2 (if steps = 1 then 1 else pipes.getD 1 (-1))
        { s with fds := o.1 }
      { s1 with fds := sys_close s1.fds o.2 }
    | none =>
      match outfile with
      | some g =>
        if steps = 1 then
          let o := sys_open s.fds g (w.open_ok g)
          let s1 := call_run w parsed i 0 o.2 { s with fds := o.1 }
          { s1 with fds := sys_close s1.fds o.2 }
        else plain
      | none => plain
  else if i = steps - 1 then
    let t1 := sys_close s.fds (pipes.getD ((i - 1) * 2 + 1) (-1))
    match outfile with
    | some g =>
      let o := sys_open t1 g (w.open_ok g)
      let s1 := call_run w parsed i (pipes.getD ((i - 1) * 2) (-1)) o.2 { s with fds := o.1 }
      { s1 with fds := sys_close s1.fds o.2 }
    | none => call_run w parsed i (pipes.getD ((i - 1) * 2) (-1)) 1 { s with fds := t1 }
  else
    call_run w parsed i (pipes.getD ((i - 1) * 2) (-1)) (pipes.getD (i * 2 + 1) (-1)) s

/-- The stage loop `for (int i = 0; i < pipeline_steps; i++)` (line 115): the
first argument counts the iterations left, the second is `i`. -/
def stage_iter (w : World) (parsed : Nat → Str × List Str) (steps : Nat) (pipes : List Int)
    (infile outfile : Option Str) : Nat → Nat → Shell → Shell
  | 0, _, s => s
  | n + 1, i, s =>
    stage_iter w parsed steps pipes infile outfile n (i + 1)
      (run_stage w parsed steps pipes infile outfile i s)

/-- What the pipeline section of `main` leaves behind. -/
structure PipelineRun where
  ret : Int
  fds : FdTable
  calls : List StageCall
  pipes : List Int

/-- Lines 101-175 of `main`: `ret = 0`, then, when `pipeline_steps > 0`, the
pipes, the two `dup`s, the stage loop and the restoring of descriptors 0 and 1.
`steps` is the value `parse_line` returned (not negative at this point) and
`fds` the descriptor table of the shell process before. -/
def run_pipeline (w : World) (parsed : Nat → Str × List Str) (steps : Nat)
    (infile outfile : Option Str) (fds : FdTable) : PipelineRun :=
  if 0 < steps then
    let mp := make_pipes fds (steps - 1) 0
    let og_in := sys_dup mp.1 0
    let og_out := sys_dup og_in.1 1
    let s := stage_iter w parsed steps mp.2 infile outfile steps 0 ⟨og_out.1, 0, []⟩
    let t1 := sys_dup2 s.fds og_in.2 0
    let t2 := sys_close t1 og_in.2
    let t3 := sys_dup2 t2 og_out.2 1
    let t4 := sys_close t3 og_out.2
    ⟨s.ret, t4, s.calls, mp.2⟩
  else ⟨0, fds, [], []⟩

/-- The descriptors `main` passes for a stage are the ones the `pipes` array
holds for it: from the second stage on the standard input is `pipes[(i-1)*2]`,
before the last stage the standard output is `pipes[i*2+1]`; the outcome
recorded is that of `run_command` on row `i` with these descriptors. -/
def Wired (w : World) (parsed : Nat → Str × List Str) (steps : Nat) (pipes : List Int)
    (c : StageCall) : Prop :=
  (c.cmd, c.rest) = parsed c.stage ∧
  c.result = run_command w (w.fork_ok c.stage) c.cmd c.rest c.stdin c.stdout ∧
  (0 < c.stage → c.stdin = pipes.getD ((c.stage - 1) * 2) (-1)) ∧
  (c.stage + 1 < steps → c.stdout = pipes.getD (c.stage * 2 + 1) (-1))

/-! ## history.c -/

/-- The fields `idx` and `valid_entries` of `struct history`.  The contents of
the 50 slots `arr` are left out: what is modelled is which slots are indexed. -/
structure History where
  idx : Int
  valid_entries : Int
  deriving DecidableEq

/-- The history as `main` sets it up (`thsh.c` lines 18-19). -/
def emptyHistory : History := ⟨0, 0⟩

/-- The function `add_history_line` of `history.c` (lines 15-20): the line is
copied into slot `idx`, then both fields are updated. -/
def add_history_line (h : History) : History :=
  { idx := if h.idx = 49 then 0 else h.idx + 1
    valid_entries := if h.valid_entries = 50 then h.valid_entries else h.valid_entries + 1 }

/-- The function `clear_history` of `history.c` (lines 22-27). -/
def clear_history (_h : History) : History := ⟨0, 0⟩

/-- The start index that `print_history` (line 33) and `save_history` (line 56)
compute, `(myhistory->idx - history_len) % 50`, the remainder of C truncating
towards zero. -/
def history_start (h : History) : Int :=
  Int.tmod (h.idx - h.valid_entries) 50

/-- The loop `while (history_len > 0)` of `print_history` and `save_history`:
the indices `idx` at which `arr[idx]` is read, in order.  The first argument is
`history_len`, the second `idx`. -/
def history_visit : Nat → Int → List Int
  | 0, _ => []
  | n + 1, idx => idx :: history_visit n (if idx + 1 = 50 then 0 else idx + 1)

/-- The slots that `print_history` (lines 30-44) reads, in order. -/
def print_history (h : History) : List Int :=
  history_visit h.valid_entries.toNat (history_start h)

/-- The slots that `save_history` (lines 49-70) reads, in order. -/
def save_history (h : History) : List Int :=
  history_visit h.valid_entries.toNat (history_start h)

/-- A call that changes the history. -/
inductive HistoryCall where
  | add
  | clear
  deriving DecidableEq

/-- The history after a sequence of calls, the first call first. -/
def run_history : List HistoryCall → History → History
  | [], h => h
  | HistoryCall.add :: more, h => run_history more (add_history_line h)
  | HistoryCall.clear :: more, h => run_history more (clear_history h)

/-! ## Inputs used in the examples -/

/-- A two-stage line that ends in a comment. -/
def lineLsWc : Str := "ls -l | wc # count\n".toList

/-- A directory listing used in the examples, in `readdir` order. -/
def listingAC : List Str :=
  [".".toList, "..".toList, "b.c".toList, ".x.c".toList, "notes.txt".toList, "a.c".toList]

/-- A two-stage line with an input file on the first stage and an output file on
the last. -/
def lineCatWc : Str := "cat < in.txt | wc -l > out.txt\n".toList

/-- A one-stage line whose argument word is a glob. -/
def lineLsGlob : Str := "ls *.c > out".toList

/-- A one-stage line whose redirection target is followed by a tab. -/
def lineCatTab : Str := "cat < a\tb".toList

/-- A line of 33 one-word stages, `a|a|...|a|`. -/
def line33Stages : Str := (List.replicate 33 ['a', '|']).flatten

/-- A one-stage line of 17 words, `a a ... a `. -/
def line17Args : Str := (List.replicate 17 ['a', ' ']).flatten

/-- The descriptor table of a shell started with descriptors 0, 1 and 2. -/
def fds012 : FdTable :=
  [some (Res.inherited 0), some (Res.inherited 1), some (Res.inherited 2)]

/-- A world with `/bin/ls`, `/bin/wc` and `./prog`, the path table `/bin`, no
builtin, and every `fork` and `open` succeeding. -/
def worldBin : World where
  path_table := ["/bin".toList]
  file_exists := fun p => p == "/bin/ls".toList || p == "/bin/wc".toList || p == "./prog".toList
  found_builtin := fun _ => 0
  fork_ok := fun _ => true
  open_ok := fun _ => true

/-- A world with `tool` under both `/a` and `/b`, the path table `/a`, `/b`. -/
def worldAB : World where
  path_table := ["/a".toList, "/b".toList]
  file_exists := fun p => p == "/a/tool".toList || p == "/b/tool".toList
  found_builtin := fun _ => 0
  fork_ok := fun _ => true
  open_ok := fun _ => true

/-- The rows of `ls | wc`. -/
def rowsLsWc : Nat → Str × List Str :=
  fun i => if i = 0 then ("ls".toList, []) else ("wc".toList, [])

/-- The rows of `nosuch | ls`. -/
def rowsNosuchLs : Nat → Str × List Str :=
  fun i => if i = 0 then ("nosuch".toList, []) else ("ls".toList, [])

/-- The rows of `ls | wc | wc`. -/
def rowsLsWcWc : Nat → Str × List Str :=
  fun i => if i = 0 then ("ls".toList, []) else ("wc".toList, [])


/-- A one-stage line whose argument is `*txt`. -/
def lineLsStarTxt : Str := "ls *txt\n".toList

/-- A segment with `<` before `>`. -/
def segInOut : Str := "cmd < a > b".toList

/-- A segment with `>` before `<`. -/
def segOutIn : Str := "cmd > b < a".toList

/-- The rows of the one-stage pipeline `./prog`. -/
def rowsProg : Nat → Str × List Str :=
  fun _ => ("./prog".toList, [])

/-! ## `strtok_r` enumerates the tokens of a string -/

theorem tokens_nil (d : Str) : tokens d [] = [] := by
  simp [tokens]

theorem tokens_cons_delim {d : Str} {c : Char} (h : c ∈ d) (s : Str) :
    tokens d (c :: s) = tokens d s := by
  simp [tokens, h]

theorem tokens_cons_run {d : Str} {c : Char} (h : c ∉ d) (s : Str) :
    tokens d (c :: s) =
      (c :: s).takeWhile (fun x => !decide (x ∈ d)) ::
        tokens d (((c :: s).dropWhile (fun x => !decide (x ∈ d))).drop 1) := by
  have hsplit := List.takeWhile_append_dropWhile (fun x => !decide (x ∈ d)) (c :: s)
  have htw : (c :: s).takeWhile (fun x => !decide (x ∈ d)) =
      c :: s.takeWhile (fun x => !decide (x ∈ d)) := by
    simp [List.takeWhile_cons, h]
  have hno : ∀ x ∈ (c :: s).takeWhile (fun x => !decide (x ∈ d)),
      ¬ (fun c => decide (c ∈ d)) x = true := by
    intro x hx
    have := List.mem_takeWhile_imp hx
    simpa using this
  cases hdw : (c :: s).dropWhile (fun x => !decide (x ∈ d)) with
  | nil =>
    rw [hdw, List.append_nil] at hsplit
    have h1 : (c :: s).splitOnP (fun c => decide (c ∈ d)) = [c :: s] := by
      apply List.splitOnP_eq_single
      intro x hx
      rw [← hsplit] at hx
      exact hno x hx
    rw [hsplit]
    simp [tokens, h1]
  | cons x r =>
    have hx : (fun c => decide (c ∈ d)) x = true := by
      have := List.head_dropWhile_not (fun x => !decide (x ∈ d)) (c :: s) (by rw [hdw]; simp)
      simp only [hdw, List.head_cons] at this
      simpa using this
    rw [hdw] at hsplit
    have h1 := List.splitOnP_first (fun c => decide (c ∈ d)) _ hno x hx r
    rw [hsplit] at h1
    rw [tokens, h1, htw]
    simp [tokens]

theorem strtok_r_cons_delim {d : Str} {c : Char} (h : c ∈ d) (s : Str) :
    strtok_r (c :: s) d = strtok_r s d := by
  simp [strtok_r, h]

theorem strtok_r_cons_run {d : Str} {c : Char} (h : c ∉ d) (s : Str) :
    strtok_r (c :: s) d =
      (some ((c :: s).takeWhile (fun x => !decide (x ∈ d))),
        ((c :: s).dropWhile (fun x => !decide (x ∈ d))).drop 1) := by
  simp [strtok_r, h]

/-- A call of `strtok_r` returns `NULL` exactly when the string has no token. -/
theorem strtok_r_none (d s : Str) (h : (strtok_r s d).1 = none) : tokens d s = [] := by
  induction s with
  | nil => exact tokens_nil d
  | cons c cs ih =>
    by_cases hc : c ∈ d
    · rw [strtok_r_cons_delim hc] at h
      rw [tokens_cons_delim hc]
      exact ih h
    · rw [strtok_r_cons_run hc] at h
      simp at h

/-- A call of `strtok_r` that returns a token returns the first token, leaves
the save pointer on a strictly shorter string, and the tokens of that string
are the remaining tokens. -/
theorem strtok_r_some (d s t : Str) (h : (strtok_r s d).1 = some t) :
    tokens d s = t :: tokens d (strtok_r s d).2 ∧ (strtok_r s d).2.length < s.length := by
  induction s with
  | nil => simp [strtok_r] at h
  | cons c cs ih =>
    by_cases hc : c ∈ d
    · rw [strtok_r_cons_delim hc] at h ⊢
      rw [tokens_cons_delim hc]
      refine ⟨(ih h).1, ?_⟩
      have := (ih h).2
      simp only [List.length_cons]
      omega
    · rw [strtok_r_cons_run hc] at h ⊢
      simp only [Option.some.injEq] at h
      refine ⟨?_, ?_⟩
      · rw [tokens_cons_run hc, h]
      · have := (List.dropWhile_sublist (fun x => !decide (x ∈ d)) (l := c :: cs)).length_le
        simp only [List.length_drop, List.length_cons] at this ⊢
        omega

theorem writeRow_append (c : Commands) (i j : Nat) (a b : List Str) :
    writeRow c i j (a ++ b) = writeRow (writeRow c i j a) i (j + a.length) b := by
  induction a generalizing c j with
  | nil => simp [writeRow]
  | cons x xs ih =>
    show writeRow (c.set i j x) i (j + 1) (xs ++ b) = _
    rw [ih]
    simp only [writeRow, List.length_cons]
    have : j + 1 + xs.length = j + (xs.length + 1) := by omega
    rw [this]

theorem writeRow_singleton (c : Commands) (i j : Nat) (x : Str) :
    writeRow c i j [x] = c.set i j x := rfl

theorem expand_glob_loop_eq (glob : Str) (i : Nat) (dir : List Str) (c : Commands)
    (j found : Nat) :
    expand_glob_loop glob i dir c j found =
      (writeRow c i j (dir.filter (glob_matches glob)),
        j + (dir.filter (glob_matches glob)).length,
        found + (dir.filter (glob_matches glob)).length) := by
  induction dir generalizing c j found with
  | nil => simp [expand_glob_loop, writeRow]
  | cons name rest ih =>
    by_cases h : glob_matches glob name = true
    · simp only [expand_glob_loop, h, if_true, ih, List.filter_cons_of_pos, writeRow,
        List.length_cons]
      refine Prod.ext rfl (Prod.ext ?_ ?_) <;> simp <;> omega
    · simp only [expand_glob_loop, h, ih, List.filter_cons]
      simp

/-- One pass through the body of the token loop writes `expandToken dir tok`. -/
theorem token_step_eq (dir : List Str) (i : Nat) (tok : Str) (c : Commands) (j : Nat) :
    (if strstr tok ['*', '.'] then
        let r := expand_glob dir tok c i j
        if r.2.2 = 0 then (r.1.set i r.2.1 tok, r.2.1 + 1) else (r.1, r.2.1)
      else (c.set i j tok, j + 1)) =
      (writeRow c i j (expandToken dir tok), j + (expandToken dir tok).length) := by
  unfold expandToken
  by_cases hg : strstr tok ['*', '.'] = true
  · simp only [hg, if_true, expand_glob, expand_glob_loop_eq, Nat.zero_add]
    generalize dir.filter (glob_matches (tok.drop 1)) = m
    cases m with
    | nil => simp [writeRow]
    | cons a l => simp
  · simp [hg, writeRow]

/-- The token loop, started on the first `strtok_r` result of a stage text and
given fuel beyond the length of that text, writes the expansion of every token
of the text, left to right, from column `j` on. -/
theorem token_loop_eq (dir : List Str) (i fuel : Nat) (s : Str) (c : Commands) (j : Nat)
    (hfuel : s.length < fuel) :
    token_loop dir i fuel (strtok_r s [' ', '\n']).1 (strtok_r s [' ', '\n']).2 c j =
      (writeRow c i j ((tokens [' ', '\n'] s).flatMap (expandToken dir)),
        j + ((tokens [' ', '\n'] s).flatMap (expandToken dir)).length) := by
  induction fuel generalizing s c j with
  | zero => omega
  | succ n ih =>
    cases h : (strtok_r s [' ', '\n']).1 with
    | none =>
      rw [strtok_r_none _ _ h]
      simp [token_loop, writeRow]
    | some tok =>
      obtain ⟨htok, hlen⟩ := strtok_r_some _ _ _ h
      rw [htok]
      simp only [token_loop]
      rw [token_step_eq, ih _ _ _ (by omega)]
      simp only [List.flatMap_cons, writeRow_append, List.length_append]
      refine Prod.ext rfl ?_
      simp only
      omega

theorem expandToken_ne_nil (dir : List Str) (tok : Str) : expandToken dir tok ≠ [] := by
  unfold expandToken
  split
  · split
    · simp
    · assumption
  · simp

theorem flatMap_expandToken_eq_nil (dir : List Str) (l : List Str) :
    l.flatMap (expandToken dir) = [] ↔ l = [] := by
  cases l with
  | nil => simp
  | cons a t =>
    simp only [List.flatMap_cons, List.append_eq_nil, reduceCtorEq, iff_false, not_and]
    intro h
    exact absurd h (expandToken_ne_nil dir a)

/-- The stage loop, started on the first `strtok_r` result of `s` and given fuel
beyond the length of `s`, handles the `|`-pieces of `s` one after the other. -/
theorem stage_loop_eq (dir : List Str) (fuel : Nat) (s : Str) (i : Nat) (c : Commands)
    (infile outfile : Option Str) (hfuel : s.length < fuel) :
    stage_loop dir fuel (strtok_r s ['|']).1 (strtok_r s ['|']).2 i c infile outfile =
      ⟨((i + (stageRows dir s).length : Nat) : Int), writeRows c i (stageRows dir s),
        (tokens ['|'] s).foldl stageInfile infile,
        (tokens ['|'] s).foldl stageOutfile outfile⟩ := by
  induction fuel generalizing s i c infile outfile with
  | zero => omega
  | succ n ih =>
    cases h : (strtok_r s ['|']).1 with
    | none =>
      simp [stageRows, strtok_r_none _ _ h, stage_loop, writeRows]
    | some seg =>
      obtain ⟨hseg, hlen⟩ := strtok_r_some _ _ _ h
      simp only [stage_loop]
      rw [ih _ _ _ _ _ (by omega)]
      have hin : (if (strstr seg ['<'] || strstr seg ['>']) && strstr seg ['<'] then
            (strtok_r (strtok_r seg ['<', '>']).2 ['<', ' ', '\n']).1 else infile) =
          stageInfile infile seg := by
        unfold stageInfile
        cases strstr seg ['<'] <;> simp
      have hout : (if (strstr seg ['<'] || strstr seg ['>']) && !strstr seg ['<'] then
            (strtok_r (strtok_r seg ['<', '>']).2 ['>', ' ', '\n']).1 else outfile) =
          stageOutfile outfile seg := by
        unfold stageOutfile
        cases strstr seg ['<'] <;> cases strstr seg ['>'] <;> simp
      have htext : (if strstr seg ['<'] || strstr seg ['>'] then (strtok_r seg ['<', '>']).1
            else none).getD seg = stageText seg := by
        unfold stageText
        split <;> simp
      rw [hin, hout, htext]
      simp only [stageRows, hseg, List.map_cons, List.foldl_cons]
      cases hfirst : (strtok_r (stageText seg) [' ', '\n']).1 with
      | none =>
        have hargs : stageArgs dir seg = [] := by
          simp [stageArgs, strtok_r_none _ _ hfirst]
        simp [hargs]
      | some tok =>
        have hargs : stageArgs dir seg ≠ [] := by
          unfold stageArgs
          rw [Ne, flatMap_expandToken_eq_nil, (strtok_r_some _ _ _ hfirst).1]
          simp
        have hne : (!(stageArgs dir seg).isEmpty) = true := by
          cases hx : stageArgs dir seg with
          | nil => exact absurd hx hargs
          | cons a l => rfl
        have htl := token_loop_eq dir i ((stageText seg).length + 1) (stageText seg) c 0
          (by omega)
        rw [hfirst] at htl
        simp only [List.filter_cons, hne, if_true, writeRows, List.length_cons, htl]
        simp only [stageArgs]
        refine congrArg₂ (fun (a : Int) b => (⟨a, b, _, _⟩ : Parsed)) ?_ rfl
        push_cast
        omega

/-- The function `parse_line` in closed form. -/
theorem parse_line_eq (dir : List Str) (inbuf : Str) (c : Commands)
    (infile outfile : Option Str) :
    parse_line dir inbuf c infile outfile =
      ⟨((stageRows dir (inbuf.takeWhile (fun c => c != '#'))).length : Nat),
        writeRows c 0 (stageRows dir (inbuf.takeWhile (fun c => c != '#'))),
        (tokens ['|'] (inbuf.takeWhile (fun c => c != '#'))).foldl stageInfile infile,
        (tokens ['|'] (inbuf.takeWhile (fun c => c != '#'))).foldl stageOutfile outfile⟩ := by
  unfold parse_line
  simp only
  rw [stage_loop_eq dir _ _ 0 c infile outfile (by omega)]
  simp

theorem writeRow_apply (c : Commands) (i j : Nat) (l : List Str) (a b : Nat) :
    writeRow c i j l a b =
      if a = i ∧ j ≤ b ∧ b < j + l.length then l[b - j]? else c a b := by
  induction l generalizing c j with
  | nil =>
    simp only [writeRow, List.length_nil, Nat.add_zero]
    rw [if_neg (by omega)]
  | cons x xs ih =>
    simp only [writeRow, ih, List.length_cons, Commands.set]
    by_cases h1 : a = i ∧ j + 1 ≤ b ∧ b < j + 1 + xs.length
    · rw [if_pos h1, if_pos (by omega)]
      have : b - j = (b - (j + 1)) + 1 := by omega
      rw [this, List.getElem?_cons_succ]
    · rw [if_neg h1]
      by_cases h2 : a = i ∧ b = j
      · rw [if_pos h2, if_pos (by omega)]
        have : b - j = 0 := by omega
        rw [this, List.getElem?_cons_zero]
      · rw [if_neg h2, if_neg (by omega)]

theorem writeRows_apply (c : Commands) (i : Nat) (rows : List (List Str)) (a b : Nat) :
    writeRows c i rows a b =
      if i ≤ a then (match cellOf rows (a - i) b with
        | some x => some x
        | none => c a b) else c a b := by
  induction rows generalizing c i with
  | nil => simp [writeRows, cellOf]
  | cons r rs ih =>
    simp only [writeRows, ih, writeRow_apply]
    by_cases h1 : i + 1 ≤ a
    · have h2 : i ≤ a := by omega
      have hne : a ≠ i := by omega
      have : a - i = (a - (i + 1)) + 1 := by omega
      simp [h1, h2, hne, cellOf, this]
    · rw [if_neg h1]
      by_cases h2 : i ≤ a
      · have hai : a = i := by omega
        subst hai
        simp only [Nat.le_refl, if_true, Nat.sub_self, cellOf, List.getElem?_cons_zero,
          Option.some_bind, Nat.zero_le, true_and, Nat.zero_add, Nat.sub_zero]
        by_cases h3 : b < r.length
        · rw [if_pos h3, List.getElem?_eq_getElem h3]
        · rw [if_neg h3, List.getElem?_eq_none (by omega)]
      · rw [if_neg h2, if_neg (by omega)]

theorem writeRows_reset (rows : List (List Str)) (a b : Nat) :
    writeRows resetCommands 0 rows a b = cellOf rows a b := by
  rw [writeRows_apply]
  simp only [Nat.zero_le, if_true, Nat.sub_zero, resetCommands]
  cases cellOf rows a b <;> rfl

theorem strstr_singleton (s : Str) (c : Char) : strstr s [c] = true ↔ c ∈ s := by
  induction s with
  | nil => simp [strstr, List.isPrefixOf]
  | cons x xs ih =>
    simp only [strstr, List.tails, List.any_cons, List.isPrefixOf, Bool.and_true,
      Bool.or_eq_true, beq_iff_eq, List.mem_cons] at ih ⊢
    rw [ih]

theorem strstr_singleton_false (s : Str) (c : Char) (h : c ∉ s) : strstr s [c] = false := by
  rw [← Bool.not_eq_true, strstr_singleton]
  exact h

theorem mem_of_mem_splitOnP (p : Char → Bool) (l : Str) :
    ∀ seg ∈ l.splitOnP p, ∀ c ∈ seg, c ∈ l := by
  induction l with
  | nil => simp
  | cons x xs ih =>
    intro seg hseg c hc
    rw [List.splitOnP_cons] at hseg
    by_cases hx : p x = true
    · rw [if_pos hx] at hseg
      rcases List.mem_cons.1 hseg with h | h
      · subst h; simp at hc
      · exact List.mem_cons_of_mem _ (ih seg h c hc)
    · rw [if_neg hx] at hseg
      cases hsp : xs.splitOnP p with
      | nil => exact absurd hsp (List.splitOnP_ne_nil p xs)
      | cons h0 t0 =>
        rw [hsp] at hseg ih
        simp only [List.modifyHead, List.mem_cons] at hseg
        rcases hseg with h | h
        · subst h
          rcases List.mem_cons.1 hc with h' | h'
          · subst h'; exact List.mem_cons_self _ _
          · exact List.mem_cons_of_mem _ (ih h0 (List.mem_cons_self _ _) c h')
        · exact List.mem_cons_of_mem _ (ih seg (List.mem_cons_of_mem _ h) c hc)

theorem splitOnP_congr (p q : Char → Bool) (l : Str) (h : ∀ c ∈ l, p c = q c) :
    l.splitOnP p = l.splitOnP q := by
  induction l with
  | nil => rfl
  | cons x xs ih =>
    rw [List.splitOnP_cons, List.splitOnP_cons, h x (List.mem_cons_self _ _),
      ih (fun c hc => h c (List.mem_cons_of_mem _ hc))]

theorem mem_of_mem_tokens (d s : Str) : ∀ t ∈ tokens d s, ∀ c ∈ t, c ∈ s := by
  intro t ht c hc
  exact mem_of_mem_splitOnP _ s t (List.mem_of_mem_filter ht) c hc

theorem tokens_eq_words (s : Str) (h : OnlySpaceNewline s) : tokens [' ', '\n'] s = words s := by
  unfold tokens words
  rw [splitOnP_congr _ Char.isWhitespace s]
  intro c hc
  by_cases hw : c.isWhitespace = true
  · rcases h c hc hw with h1 | h1 <;> subst h1 <;> decide
  · rw [Bool.not_eq_true] at hw
    rw [hw]
    simp only [List.mem_cons, List.mem_singleton, List.not_mem_nil, or_false,
      decide_eq_false_iff_not]
    rintro (h1 | h1) <;> subst h1 <;> exact absurd hw (by decide)

theorem flatMap_expandToken_plain (dir : List Str) (l : List Str)
    (h : ∀ w ∈ l, strstr w ['*', '.'] = false) : l.flatMap (expandToken dir) = l := by
  induction l with
  | nil => rfl
  | cons a t ih =>
    rw [List.flatMap_cons, ih (fun w hw => h w (List.mem_cons_of_mem _ hw))]
    simp [expandToken, h a (List.mem_cons_self _ _)]

/-- A piece without redirection operator is tokenised as it stands. -/
theorem stageText_plain (seg : Str) (hlt : '<' ∉ seg) (hgt : '>' ∉ seg) : stageText seg = seg := by
  simp [stageText, strstr_singleton_false _ _ hlt, strstr_singleton_false _ _ hgt]

theorem stageInfile_plain (infile : Option Str) (seg : Str) (hlt : '<' ∉ seg) :
    stageInfile infile seg = infile := by
  simp [stageInfile, strstr_singleton_false _ _ hlt]

theorem stageOutfile_plain (outfile : Option Str) (seg : Str) (hgt : '>' ∉ seg) :
    stageOutfile outfile seg = outfile := by
  simp [stageOutfile, strstr_singleton_false _ _ hgt]

theorem stageArgs_plain (dir : List Str) (seg : Str) (hlt : '<' ∉ seg) (hgt : '>' ∉ seg)
    (hws : OnlySpaceNewline seg) (hglob : ∀ w ∈ words seg, strstr w ['*', '.'] = false) :
    stageArgs dir seg = words seg := by
  rw [stageArgs, stageText_plain seg hlt hgt, tokens_eq_words seg hws,
    flatMap_expandToken_plain dir _ hglob]

theorem bar_pred_eq : (fun c : Char => decide (c ∈ ['|'])) = (fun c => c == '|') := by
  funext c
  by_cases h : c = '|' <;> simp [h]

theorem words_nil : words [] = [] := by
  simp [words]

/-- On pieces without operators and without glob tokens the rows the parser
writes are the words of the pieces that have a word. -/
theorem rows_of_plain (dir : List Str) (l : List Str)
    (h : ∀ seg ∈ l, '<' ∉ seg ∧ '>' ∉ seg ∧ OnlySpaceNewline seg ∧
      ∀ w ∈ words seg, strstr w ['*', '.'] = false) :
    ((l.filter (fun t => !t.isEmpty)).map (stageArgs dir)).filter (fun r => !r.isEmpty) =
      (l.filter (fun seg => !(words seg).isEmpty)).map words := by
  induction l with
  | nil => rfl
  | cons seg t ih =>
    have ih' := ih (fun s hs => h s (List.mem_cons_of_mem _ hs))
    obtain ⟨h1, h2, h3, h4⟩ := h seg (List.mem_cons_self _ _)
    have hargs := stageArgs_plain dir seg h1 h2 h3 h4
    cases seg with
    | nil => simpa [words_nil] using ih'
    | cons x xs =>
      simp only [List.filter_cons, List.isEmpty_cons, Bool.not_false, if_true, List.map_cons,
        hargs]
      by_cases hw : (!(words (x :: xs)).isEmpty) = true
      · simp only [hw, if_true, List.map_cons, ih']
      · simp only [hw, Bool.false_eq_true, if_false, ih']

theorem mem_beforeComment (line : Str) : ∀ c ∈ beforeComment line, c ∈ line :=
  fun _ hc => (List.takeWhile_prefix _).subset hc

/-- The rows written for a line without redirection operators and glob tokens. -/
theorem stageRows_plain (dir : List Str) (line : Str)
    (hlt : '<' ∉ line) (hgt : '>' ∉ line) (hws : OnlySpaceNewline line)
    (hglob : ∀ seg ∈ segments line, ∀ w ∈ words seg, strstr w ['*', '.'] = false) :
    stageRows dir (beforeComment line) = (segments line).map words := by
  unfold stageRows tokens
  rw [bar_pred_eq]
  unfold segments
  apply rows_of_plain
  intro seg hseg
  have hsub : ∀ c ∈ seg, c ∈ line := fun c hc =>
    mem_beforeComment line c (mem_of_mem_splitOnP _ _ seg hseg c hc)
  refine ⟨fun h => hlt (hsub _ h), fun h => hgt (hsub _ h), fun c hc => hws c (hsub c hc), ?_⟩
  intro w hw
  apply hglob seg _ w hw
  unfold segments
  rw [List.mem_filter]
  refine ⟨hseg, ?_⟩
  cases hwd : words seg with
  | nil => rw [hwd] at hw; simp at hw
  | cons a l => rfl

theorem splitOnP_all_sep (p : Char → Bool) (s : Str) (h : ∀ c ∈ s, p c = true) :
    ∀ t ∈ s.splitOnP p, t = [] := by
  induction s with
  | nil => simp
  | cons x xs ih =>
    rw [List.splitOnP_cons, if_pos (h x (List.mem_cons_self _ _))]
    intro t ht
    rcases List.mem_cons.1 ht with h1 | h1
    · exact h1
    · exact ih (fun c hc => h c (List.mem_cons_of_mem _ hc)) t h1

theorem words_blank (s : Str) (h : ∀ c ∈ s, c = ' ' ∨ c = '\n') : words s = [] := by
  unfold words
  rw [List.filter_eq_nil_iff]
  intro t ht
  have hall : ∀ c ∈ s, Char.isWhitespace c = true := by
    intro c hc
    rcases h c hc with h1 | h1 <;> subst h1 <;> decide
  rw [splitOnP_all_sep _ s hall t ht]
  simp

theorem segments_blank (line : Str) (h : ∀ c ∈ beforeComment line, c = ' ' ∨ c = '\n') :
    segments line = [] := by
  unfold segments
  rw [List.filter_eq_nil_iff]
  intro seg hseg
  have : words seg = [] :=
    words_blank seg (fun c hc => h c (mem_of_mem_splitOnP _ _ seg hseg c hc))
  simp [this]

/-- C1. For a line without `<` and `>`, whose whitespace is spaces and newlines
only, none of whose tokens contains `*.`, with at most `MAX_PIPELINE` stages and
fewer than `MAX_ARGS` tokens in each: `parse_line` returns the number of
`|`-separated segments of the text before the first `#` that hold a token; cell
`commands[k][j]` holds token `j` of the `k`-th such segment and is `NULL` when
there is no such token; every cell written lies inside the array and leaves room
for the terminating `NULL`; and a line that is empty, blank or only a comment
gives 0 and an untouched array. -/
theorem parse_line_plain (dir : List Str) (line : Str) (infile outfile : Option Str)
    (hlt : '<' ∉ line) (hgt : '>' ∉ line) (hws : OnlySpaceNewline line)
    (hglob : ∀ seg ∈ segments line, ∀ w ∈ words seg, strstr w ['*', '.'] = false)
    (hstages : (segments line).length ≤ MAX_PIPELINE)
    (hargs : ∀ seg ∈ segments line, (words seg).length < MAX_ARGS) :
    (parse_line dir line resetCommands infile outfile).ret = ((segments line).length : Nat) ∧
    (∀ k j, (parse_line dir line resetCommands infile outfile).commands k j =
        ((segments line)[k]?).bind (fun seg => (words seg)[j]?)) ∧
    (∀ k j, (parse_line dir line resetCommands infile outfile).commands k j ≠ none →
        k < MAX_PIPELINE ∧ j + 1 < MAX_ARGS) ∧
    ((∀ c ∈ beforeComment line, c = ' ' ∨ c = '\n') →
        (parse_line dir line resetCommands infile outfile).ret = 0 ∧
        ∀ k j, (parse_line dir line resetCommands infile outfile).commands k j = none) := by
  have hrows := stageRows_plain dir line hlt hgt hws hglob
  unfold beforeComment at hrows
  have hcell : ∀ k j, (parse_line dir line resetCommands infile outfile).commands k j =
      ((segments line)[k]?).bind (fun seg => (words seg)[j]?) := by
    intro k j
    rw [parse_line_eq]
    simp only [hrows, writeRows_reset, cellOf, List.getElem?_map]
    cases (segments line)[k]? <;> rfl
  have hret : (parse_line dir line resetCommands infile outfile).ret =
      ((segments line).length : Nat) := by
    rw [parse_line_eq]
    simp only [hrows, List.length_map]
  refine ⟨hret, hcell, ?_, ?_⟩
  · intro k j hne
    rw [hcell] at hne
    cases hk : (segments line)[k]? with
    | none => rw [hk] at hne; exact absurd rfl hne
    | some seg =>
      rw [hk] at hne
      simp only [Option.some_bind] at hne
      obtain ⟨hklt, hkeq⟩ := List.getElem?_eq_some_iff.1 hk
      have hmem : seg ∈ segments line := hkeq ▸ List.getElem_mem hklt
      have hj : j < (words seg).length := by
        by_contra hcon
        exact hne (List.getElem?_eq_none (by omega))
      have := hargs seg hmem
      constructor <;> omega
  · intro hblank
    have hseg := segments_blank line hblank
    refine ⟨by rw [hret, hseg]; rfl, fun k j => by rw [hcell, hseg]; rfl⟩

/-- C1, witness: `ls -l | wc # count` parses to the rows `ls -l` and `wc`. -/
theorem parse_line_plain_witness :
    (parse_line [] lineLsWc resetCommands none none).ret = 2 ∧
    (parse_line [] lineLsWc resetCommands none none).commands 0 1 = some ['-', 'l'] ∧
    (parse_line [] lineLsWc resetCommands none none).commands 1 0 = some ['w', 'c'] ∧
    (parse_line [] lineLsWc resetCommands none none).commands 1 1 = none := by
  have h := parse_line_plain [] lineLsWc none none (by decide) (by decide)
    (by unfold OnlySpaceNewline; decide) (by decide) (by decide) (by decide)
  refine ⟨?_, ?_, ?_, ?_⟩
  · rw [h.1]; decide
  · rw [h.2.1]; decide
  · rw [h.2.1]; decide
  · rw [h.2.1]; decide

/-! ## Glob expansion -/

theorem strstr_iff_occurs (hay needle : Str) : strstr hay needle = true ↔ needle <:+: hay := by
  unfold strstr
  rw [List.any_eq_true, List.infix_iff_prefix_suffix]
  constructor
  · rintro ⟨t, ht, hp⟩
    exact ⟨t, List.isPrefixOf_iff_prefix.1 hp, (List.mem_tails t hay).1 ht⟩
  · rintro ⟨t, hp, ht⟩
    exact ⟨t, (List.mem_tails t hay).2 ht, List.isPrefixOf_iff_prefix.2 hp⟩

theorem filter_glob_matches (listing : List Str) (suffix : Str) :
    listing.filter (glob_matches suffix) = globNames listing suffix := by
  unfold globNames
  congr 1
  funext name
  unfold glob_matches
  by_cases h : suffix <:+: name
  · by_cases h2 : name.head? = some '.' <;>
      simp [h, h2, (strstr_iff_occurs name suffix).2 h]
  · have : strstr name suffix = false := by
      rw [← Bool.not_eq_true, strstr_iff_occurs]
      exact h
    simp [h, this]

/-- C3. For a token `*suffix` that `parse_line` hands to `expand_glob` (it
contains `*.`) and every directory listing: `expand_glob` writes the names of
the listing that contain `suffix` and do not start with `.`, in listing order,
into the current row from the current column and returns their number; and one
pass of the token loop appends exactly those names, or the literal token alone
when no name qualifies, before going on to the next token. -/
theorem glob_token_appends (listing : List Str) (suffix : Str) (i fuel : Nat) (ptr : Str)
    (c : Commands) (j : Nat) (hglob : strstr ('*' :: suffix) ['*', '.'] = true) :
    expand_glob listing ('*' :: suffix) c i j =
      (writeRow c i j (globNames listing suffix), j + (globNames listing suffix).length,
        (globNames listing suffix).length) ∧
    token_loop listing i (fuel + 1) (some ('*' :: suffix)) ptr c j =
      token_loop listing i fuel (strtok_r ptr [' ', '\n']).1 (strtok_r ptr [' ', '\n']).2
        (writeRow c i j
          (if globNames listing suffix = [] then ['*' :: suffix] else globNames listing suffix))
        (j + (if globNames listing suffix = [] then ['*' :: suffix]
          else globNames listing suffix).length) := by
  constructor
  · simp [expand_glob, expand_glob_loop_eq, filter_glob_matches]
  · simp only [token_loop]
    rw [token_step_eq]
    simp [expandToken, hglob, filter_glob_matches]

/-- C3, witness: `*.c` against a listing with `b.c`, a hidden `.x.c` and `a.c`
appends `b.c` then `a.c`. -/
theorem glob_token_appends_witness :
    (expand_glob listingAC ['*', '.', 'c'] resetCommands 0 1).2.2 = 2 ∧
    (expand_glob listingAC ['*', '.', 'c'] resetCommands 0 1).1 0 1 = some ['b', '.', 'c'] ∧
    (expand_glob listingAC ['*', '.', 'c'] resetCommands 0 1).1 0 2 = some ['a', '.', 'c'] := by
  have h := (glob_token_appends listingAC ['.', 'c'] 0 0 [] resetCommands 1 (by decide)).1
  rw [h]
  decide


/-! ## Stages with a redirection -/

theorem strtok_r_fst (d s : Str) : (strtok_r s d).1 = (tokens d s).head? := by
  cases h : (strtok_r s d).1 with
  | none => rw [strtok_r_none d s h]; rfl
  | some t => rw [(strtok_r_some d s t h).1]; rfl

theorem op_pred_eq :
    (fun x : Char => !decide (x ∈ ['<', '>'])) = (fun c => c != '<' && c != '>') := by
  funext c
  by_cases h1 : c = '<'
  · subst h1; rfl
  · by_cases h2 : c = '>'
    · subst h2; rfl
    · simp [h1, h2]

theorem seg_eq_left_append (seg : Str) :
    seg = leftOf seg ++ seg.dropWhile (fun c => c != '<' && c != '>') :=
  (List.takeWhile_append_dropWhile _ seg).symm

theorem words_ne_nil_ne_nil (s : Str) (h : words s ≠ []) : s ≠ [] := by
  intro hs
  exact h (hs ▸ words_nil)

/-- On a segment of the form `words op target` the call `strtok_r(seg, "<>")`
returns the text left of the operator and leaves the save pointer on the text
right of it. -/
theorem strtok_r_redir (seg : Str) (hleft : leftOf seg ≠ []) :
    strtok_r seg ['<', '>'] = (some (leftOf seg), rightOf seg) := by
  cases seg with
  | nil => exact absurd rfl hleft
  | cons c cs =>
    have hc : c ∉ ['<', '>'] := by
      intro hmem
      apply hleft
      unfold leftOf
      rcases List.mem_cons.1 hmem with h | h
      · subst h; rfl
      · rw [List.mem_singleton] at h; subst h; rfl
    rw [strtok_r_cons_run hc, op_pred_eq]
    rfl

theorem not_mem_leftOf (seg : Str) : '<' ∉ leftOf seg ∧ '>' ∉ leftOf seg := by
  constructor <;> intro h <;> have := List.mem_takeWhile_imp h <;> simp at this

/-- In a segment with exactly one operator the text after the first operator
contains no operator, and the segment is the left text, the operator and the
right text. -/
theorem redir_shape (seg : Str) (hone : seg.count '<' + seg.count '>' = 1) :
    ∃ op, (op = '<' ∨ op = '>') ∧ seg = leftOf seg ++ op :: rightOf seg ∧
      '<' ∉ rightOf seg ∧ '>' ∉ rightOf seg ∧ seg.count op = 1 := by
  have hsplit := seg_eq_left_append seg
  have hl := not_mem_leftOf seg
  cases hdw : seg.dropWhile (fun c => c != '<' && c != '>') with
  | nil =>
    rw [hdw, List.append_nil] at hsplit
    rw [hsplit, List.count_eq_zero_of_not_mem hl.1, List.count_eq_zero_of_not_mem hl.2] at hone
    omega
  | cons op r =>
    have hop : op = '<' ∨ op = '>' := by
      have := List.head_dropWhile_not (fun c => c != '<' && c != '>') seg (by rw [hdw]; simp)
      simp only [hdw, List.head_cons] at this
      by_cases h1 : op = '<'
      · exact Or.inl h1
      · by_cases h2 : op = '>'
        · exact Or.inr h2
        · simp [h1, h2] at this
    have hr : rightOf seg = r := by simp [rightOf, hdw]
    rw [hdw] at hsplit
    have hcount : seg.count '<' + seg.count '>' =
        (op :: r).count '<' + (op :: r).count '>' := by
      conv_lhs => rw [hsplit]
      rw [List.count_append, List.count_append, List.count_eq_zero_of_not_mem hl.1,
        List.count_eq_zero_of_not_mem hl.2]
      omega
    rw [hcount] at hone
    refine ⟨op, hop, by rw [hr]; exact hsplit, ?_⟩
    rw [hr]
    have hcop : seg.count op = (op :: r).count op := by
      conv_lhs => rw [hsplit]
      rw [List.count_append]
      rcases hop with h | h <;> subst h
      · rw [List.count_eq_zero_of_not_mem hl.1]; omega
      · rw [List.count_eq_zero_of_not_mem hl.2]; omega
    rw [hcop]
    rcases hop with h | h <;> subst h
    · simp only [List.count_cons_self, List.count_cons_of_ne (by decide : '>' ≠ '<')] at hone ⊢
      refine ⟨?_, ?_, ?_⟩
      · intro hm; have := List.count_pos_iff.2 hm; omega
      · intro hm; have := List.count_pos_iff.2 hm; omega
      · omega
    · simp only [List.count_cons_self, List.count_cons_of_ne (by decide : '<' ≠ '>')] at hone ⊢
      refine ⟨?_, ?_, ?_⟩
      · intro hm; have := List.count_pos_iff.2 hm; omega
      · intro hm; have := List.count_pos_iff.2 hm; omega
      · omega


theorem tokens_drop_delim (x : Char) (s : Str) (h : x ∉ s) :
    tokens [x, ' ', '\n'] s = tokens [' ', '\n'] s := by
  unfold tokens
  rw [splitOnP_congr _ (fun c => decide (c ∈ [' ', '\n'])) s]
  intro c hc
  have hne : c ≠ x := fun hcx => h (hcx ▸ hc)
  simp [hne]

theorem onlySpaceNewline_of_subset {s t : Str} (h : OnlySpaceNewline t) (hsub : ∀ c ∈ s, c ∈ t) :
    OnlySpaceNewline s :=
  fun c hc => h c (hsub c hc)

theorem leftOf_subset (seg : Str) : ∀ c ∈ leftOf seg, c ∈ seg :=
  fun _ hc => (List.takeWhile_prefix _).subset hc

theorem rightOf_subset (seg : Str) : ∀ c ∈ rightOf seg, c ∈ seg :=
  fun _ hc => (List.dropWhile_suffix _).subset ((List.drop_suffix _ _).subset hc)

/-- The arguments of a segment of the form `words op target`. -/
theorem stageArgs_redir (dir : List Str) (seg : Str) (hform : RedirForm seg)
    (hws : OnlySpaceNewline seg) :
    stageArgs dir seg = (words (leftOf seg)).flatMap (expandToken dir) := by
  obtain ⟨op, hop, hseg, -, -, -⟩ := redir_shape seg hform.1
  have hmem : op ∈ seg := by rw [hseg]; simp
  have hredir : (strstr seg ['<'] || strstr seg ['>']) = true := by
    rcases hop with h | h <;> subst h
    · rw [(strstr_singleton seg '<').2 hmem]; rfl
    · rw [(strstr_singleton seg '>').2 hmem]; simp
  have hleft : leftOf seg ≠ [] := words_ne_nil_ne_nil _ hform.2.1
  rw [stageArgs, stageText, if_pos hredir, strtok_r_redir seg hleft]
  simp only [Option.getD_some]
  rw [tokens_eq_words _ (onlySpaceNewline_of_subset hws (leftOf_subset seg))]

/-- The targets after a segment `words < target`. -/
theorem stage_targets_in (infile outfile : Option Str) (seg : Str) (hform : RedirForm seg)
    (hws : OnlySpaceNewline seg) (hin : '<' ∈ seg) :
    stageInfile infile seg = (words (rightOf seg)).head? ∧
      stageOutfile outfile seg = outfile := by
  obtain ⟨op, hop, hseg, hr1, hr2, hcount⟩ := redir_shape seg hform.1
  have hleft : leftOf seg ≠ [] := words_ne_nil_ne_nil _ hform.2.1
  have hs : strstr seg ['<'] = true := (strstr_singleton seg '<').2 hin
  constructor
  · rw [stageInfile, if_pos hs, strtok_r_redir seg hleft, strtok_r_fst,
      tokens_drop_delim _ _ hr1,
      tokens_eq_words _ (onlySpaceNewline_of_subset hws (rightOf_subset seg))]
  · simp [stageOutfile, hs]

/-- The targets after a segment `words > target`. -/
theorem stage_targets_out (infile outfile : Option Str) (seg : Str) (hform : RedirForm seg)
    (hws : OnlySpaceNewline seg) (hlt : '<' ∉ seg) (hout : '>' ∈ seg) :
    stageInfile infile seg = infile ∧
      stageOutfile outfile seg = (words (rightOf seg)).head? := by
  obtain ⟨op, hop, hseg, hr1, hr2, hcount⟩ := redir_shape seg hform.1
  have hleft : leftOf seg ≠ [] := words_ne_nil_ne_nil _ hform.2.1
  have hs : strstr seg ['<'] = false := strstr_singleton_false seg '<' hlt
  have hs2 : strstr seg ['>'] = true := (strstr_singleton seg '>').2 hout
  constructor
  · simp [stageInfile, hs]
  · rw [stageOutfile, hs, hs2, if_pos (by rfl), strtok_r_redir seg hleft, strtok_r_fst,
      tokens_drop_delim _ _ hr2,
      tokens_eq_words _ (onlySpaceNewline_of_subset hws (rightOf_subset seg))]

/-- The arguments of a segment without operator. -/
theorem stageArgs_noop (dir : List Str) (seg : Str) (hlt : '<' ∉ seg) (hgt : '>' ∉ seg)
    (hws : OnlySpaceNewline seg) :
    stageArgs dir seg = (words seg).flatMap (expandToken dir) := by
  rw [stageArgs, stageText_plain seg hlt hgt, tokens_eq_words seg hws]


/-! ## The redirection targets after the whole line -/

/-- A fold that overwrites its accumulator at the elements selected by `q` ends
on the value given by the last selected element. -/
theorem foldl_override {α β : Type} (q : β → Bool) (g : β → α) (a : α) (l : List β) :
    l.foldl (fun acc s => if q s = true then g s else acc) a =
      ((l.filter q).getLast?.map g).getD a := by
  induction l generalizing a with
  | nil => rfl
  | cons x xs ih =>
    rw [List.foldl_cons, ih]
    by_cases hq : q x = true
    · rw [if_pos hq, List.filter_cons_of_pos hq, List.getLast?_cons]
      cases (xs.filter q).getLast? <;> rfl
    · rw [if_neg hq, List.filter_cons_of_neg hq]

theorem foldl_stageInfile (infile : Option Str) (l : List Str) :
    l.foldl stageInfile infile =
      ((l.filter (fun s => strstr s ['<'])).getLast?.map (stageInfile none)).getD infile := by
  rw [← foldl_override (fun s => strstr s ['<']) (stageInfile none) infile l]
  congr 1
  funext acc s
  unfold stageInfile
  split <;> rfl

theorem foldl_stageOutfile (outfile : Option Str) (l : List Str) :
    l.foldl stageOutfile outfile =
      ((l.filter (fun s => !strstr s ['<'] && strstr s ['>'])).getLast?.map
        (stageOutfile none)).getD outfile := by
  rw [← foldl_override (fun s => !strstr s ['<'] && strstr s ['>']) (stageOutfile none) outfile l]
  congr 1
  funext acc s
  unfold stageOutfile
  split <;> rfl

/-- A text without a word consists of whitespace only. -/
theorem blank_of_words_nil (s : Str) (h : words s = []) : ∀ c ∈ s, c.isWhitespace = true := by
  induction s with
  | nil => simp
  | cons x xs ih =>
    unfold words at h ih
    rw [List.splitOnP_cons] at h
    by_cases hx : x.isWhitespace = true
    · rw [if_pos hx, List.filter_cons_of_neg (by simp)] at h
      intro c hc
      rcases List.mem_cons.1 hc with h1 | h1
      · rw [h1]; exact hx
      · exact ih h c h1
    · rw [if_neg hx] at h
      cases hsp : xs.splitOnP Char.isWhitespace with
      | nil => exact absurd hsp (List.splitOnP_ne_nil _ xs)
      | cons h0 t0 =>
        rw [hsp] at h
        simp [List.modifyHead] at h

theorem no_op_of_words_nil (s : Str) (h : words s = []) : '<' ∉ s ∧ '>' ∉ s := by
  constructor <;> intro hm <;> exact absurd (blank_of_words_nil s h _ hm) (by decide)

/-- Selecting among the `|`-pieces that are non-empty is selecting among the
segments, for a selection that only takes pieces holding a word. -/
theorem filter_tokens_bar (line : Str) (q : Str → Bool)
    (hq : ∀ s, q s = true → words s ≠ []) :
    (tokens ['|'] (beforeComment line)).filter q = (segments line).filter q := by
  unfold tokens segments
  rw [bar_pred_eq, List.filter_filter, List.filter_filter]
  apply List.filter_congr
  intro s _
  by_cases h : q s = true
  · have hw := hq s h
    have hs : s ≠ [] := words_ne_nil_ne_nil s hw
    cases hws : words s with
    | nil => exact absurd hws hw
    | cons a l =>
      cases s with
      | nil => exact absurd rfl hs
      | cons c cs => simp [h]
  · rw [Bool.not_eq_true] at h
    simp [h]


theorem rows_of_segments (dir : List Str) (l : List Str)
    (h : ∀ seg ∈ l, (stageArgs dir seg = [] ↔ words seg = [])) :
    ((l.filter (fun t => !t.isEmpty)).map (stageArgs dir)).filter (fun r => !r.isEmpty) =
      (l.filter (fun seg => !(words seg).isEmpty)).map (stageArgs dir) := by
  induction l with
  | nil => rfl
  | cons seg t ih =>
    have ih' := ih (fun s hs => h s (List.mem_cons_of_mem _ hs))
    have hseg := h seg (List.mem_cons_self _ _)
    cases seg with
    | nil => simpa [words_nil] using ih'
    | cons x xs =>
      simp only [List.filter_cons, List.isEmpty_cons, Bool.not_false, if_true, List.map_cons]
      cases hw : words (x :: xs) with
      | nil =>
        rw [hseg.2 hw]
        simpa using ih'
      | cons a l =>
        cases ha : stageArgs dir (x :: xs) with
        | nil => rw [hseg.1 ha] at hw; exact absurd hw (by simp)
        | cons b m => simpa [ha] using ih'

/-- When every segment with an operator has the form `words op target`, each
segment gives one row. -/
theorem stageRows_segments (dir : List Str) (line : Str) (hws : OnlySpaceNewline line)
    (hform : ∀ seg ∈ segments line, ('<' ∈ seg ∨ '>' ∈ seg) → RedirForm seg) :
    stageRows dir (beforeComment line) = (segments line).map (stageArgs dir) := by
  unfold stageRows tokens
  rw [bar_pred_eq]
  unfold segments
  apply rows_of_segments
  intro seg hseg
  have hsub : ∀ c ∈ seg, c ∈ line := fun c hc =>
    mem_beforeComment line c (mem_of_mem_splitOnP _ _ seg hseg c hc)
  have hwseg : OnlySpaceNewline seg := onlySpaceNewline_of_subset hws hsub
  by_cases hw : words seg = []
  · obtain ⟨h1, h2⟩ := no_op_of_words_nil seg hw
    rw [stageArgs_noop dir seg h1 h2 hwseg, hw]
    simp
  · have hmem : seg ∈ segments line := by
      unfold segments
      rw [List.mem_filter]
      refine ⟨hseg, ?_⟩
      cases hwd : words seg with
      | nil => exact absurd hwd hw
      | cons a l => rfl
    by_cases hop : '<' ∈ seg ∨ '>' ∈ seg
    · have hf := hform seg hmem hop
      rw [stageArgs_redir dir seg hf hwseg, flatMap_expandToken_eq_nil]
      exact ⟨fun h => absurd h hf.2.1, fun h => absurd h hw⟩
    · rw [not_or] at hop
      rw [stageArgs_noop dir seg hop.1 hop.2 hwseg, flatMap_expandToken_eq_nil]

theorem mem_segments_line (line seg : Str) (h : seg ∈ segments line) : ∀ c ∈ seg, c ∈ line := by
  unfold segments at h
  exact fun c hc =>
    mem_beforeComment line c (mem_of_mem_splitOnP _ _ seg (List.mem_of_mem_filter h) c hc)

theorem words_ne_nil_of_mem_segments (line seg : Str) (h : seg ∈ segments line) :
    words seg ≠ [] := by
  unfold segments at h
  have := (List.mem_filter.1 h).2
  intro hw
  rw [hw] at this
  simp at this

/-- The value of `infile` after a line whose only `<` can be in the first
segment. -/
theorem infile_after (line : Str) (infile : Option Str)
    (hin : ∀ seg ∈ (segments line).tail, '<' ∉ seg) :
    (tokens ['|'] (beforeComment line)).foldl stageInfile infile =
      match (segments line).head? with
      | some seg => if '<' ∈ seg then stageInfile none seg else infile
      | none => infile := by
  rw [foldl_stageInfile, filter_tokens_bar line (fun s => strstr s ['<'])]
  · cases hs : segments line with
    | nil => rfl
    | cons s0 tl =>
      rw [hs] at hin
      have htl : tl.filter (fun s => strstr s ['<']) = [] := by
        rw [List.filter_eq_nil_iff]
        intro s hmem
        rw [strstr_singleton]
        exact hin s hmem
      by_cases h0 : '<' ∈ s0
      · simp [List.filter_cons, (strstr_singleton s0 '<').2 h0, htl, h0]
      · simp [List.filter_cons, strstr_singleton_false s0 '<' h0, htl, h0]
  · intro s hs hw
    rw [strstr_singleton] at hs
    exact (no_op_of_words_nil s hw).1 hs

/-- The value of `outfile` after a line whose only `>` can be in the last
segment. -/
theorem outfile_after (line : Str) (outfile : Option Str)
    (hout : ∀ seg ∈ (segments line).dropLast, '>' ∉ seg) :
    (tokens ['|'] (beforeComment line)).foldl stageOutfile outfile =
      match (segments line).getLast? with
      | some seg => if '<' ∉ seg ∧ '>' ∈ seg then stageOutfile none seg else outfile
      | none => outfile := by
  rw [foldl_stageOutfile, filter_tokens_bar line (fun s => !strstr s ['<'] && strstr s ['>'])]
  · cases hs : (segments line).getLast? with
    | none =>
      rw [List.getLast?_eq_none_iff.1 hs]
      rfl
    | some last =>
      have hdl := List.dropLast_append_getLast? last hs
      have hfront : (segments line).dropLast.filter
          (fun s => !strstr s ['<'] && strstr s ['>']) = [] := by
        rw [List.filter_eq_nil_iff]
        intro s hmem
        have := strstr_singleton_false s '>' (hout s hmem)
        simp [this]
      rw [← hdl, List.filter_append, hfront, List.nil_append]
      by_cases h0 : '<' ∉ last ∧ '>' ∈ last
      · have h1 := strstr_singleton_false last '<' h0.1
        have h2 := (strstr_singleton last '>').2 h0.2
        simp [List.filter_cons, h1, h2, h0]
      · have h3 : (!strstr last ['<'] && strstr last ['>']) = false := by
          rw [← Bool.not_eq_true]
          intro hcon
          simp only [Bool.and_eq_true, Bool.not_eq_true', strstr_singleton] at hcon
          apply h0
          refine ⟨?_, hcon.2⟩
          intro hm
          have := (strstr_singleton last '<').2 hm
          rw [this] at hcon
          exact absurd hcon.1 (by simp)
        simp only [List.filter_cons, h3, Bool.false_eq_true, if_false, List.filter_nil,
          List.getLast?_nil, Option.map_none', Option.getD_none, if_neg h0]
  · intro s hs hw
    simp only [Bool.and_eq_true, strstr_singleton] at hs
    exact (no_op_of_words_nil s hw).2 hs.2


theorem not_lt_of_gt_redir (seg : Str) (hform : RedirForm seg) (hout : '>' ∈ seg) : '<' ∉ seg := by
  intro hm
  have h1 := List.count_pos_iff.2 hm
  have h2 := List.count_pos_iff.2 hout
  have := hform.1
  omega

/-- C2 (amended). On a line whose whitespace is spaces and newlines only, in
which every segment holding an operator has the form `words op target`, no
segment after the first holds `<` and no segment before the last holds `>`:
the return value is the number of segments; when the first segment holds `<`,
`infile` is the first word right of the operator and, if no word left of the
operator contains `*.`, row 0 holds exactly the words left of the operator;
when the last segment holds `>`, the same for `outfile` and the last row; and a
target whose operator is not on the line keeps its value. -/
theorem parse_line_redirect (dir : List Str) (line : Str) (infile outfile : Option Str)
    (hws : OnlySpaceNewline line)
    (hform : ∀ seg ∈ segments line, ('<' ∈ seg ∨ '>' ∈ seg) → RedirForm seg)
    (hin : ∀ seg ∈ (segments line).tail, '<' ∉ seg)
    (hout : ∀ seg ∈ (segments line).dropLast, '>' ∉ seg) :
    (parse_line dir line resetCommands infile outfile).ret = ((segments line).length : Nat) ∧
    (∀ seg, (segments line).head? = some seg → '<' ∈ seg →
      (parse_line dir line resetCommands infile outfile).infile = (words (rightOf seg)).head? ∧
      ((∀ w ∈ words (leftOf seg), strstr w ['*', '.'] = false) →
        ∀ j, (parse_line dir line resetCommands infile outfile).commands 0 j =
          (words (leftOf seg))[j]?)) ∧
    (∀ seg, (segments line).getLast? = some seg → '>' ∈ seg →
      (parse_line dir line resetCommands infile outfile).outfile = (words (rightOf seg)).head? ∧
      ((∀ w ∈ words (leftOf seg), strstr w ['*', '.'] = false) →
        ∀ j, (parse_line dir line resetCommands infile outfile).commands
            ((segments line).length - 1) j = (words (leftOf seg))[j]?)) ∧
    ((∀ seg ∈ segments line, '<' ∉ seg) →
      (parse_line dir line resetCommands infile outfile).infile = infile) ∧
    ((∀ seg ∈ segments line, '>' ∉ seg) →
      (parse_line dir line resetCommands infile outfile).outfile = outfile) := by
  have hrows := stageRows_segments dir line hws hform
  have hI := infile_after line infile hin
  have hO := outfile_after line outfile hout
  unfold beforeComment at hrows hI hO
  have hcell : ∀ k j, (parse_line dir line resetCommands infile outfile).commands k j =
      ((segments line)[k]?).bind (fun seg => (stageArgs dir seg)[j]?) := by
    intro k j
    rw [parse_line_eq]
    simp only [hrows, writeRows_reset, cellOf, List.getElem?_map]
    cases (segments line)[k]? <;> rfl
  have hinf : (parse_line dir line resetCommands infile outfile).infile =
      match (segments line).head? with
      | some seg => if '<' ∈ seg then stageInfile none seg else infile
      | none => infile := by
    rw [parse_line_eq]; exact hI
  have houtf : (parse_line dir line resetCommands infile outfile).outfile =
      match (segments line).getLast? with
      | some seg => if '<' ∉ seg ∧ '>' ∈ seg then stageOutfile none seg else outfile
      | none => outfile := by
    rw [parse_line_eq]; exact hO
  refine ⟨?_, ?_, ?_, ?_, ?_⟩
  · rw [parse_line_eq]
    simp only [hrows, List.length_map]
  · intro seg hhead hlt
    have hmem : seg ∈ segments line := List.mem_of_mem_head? hhead
    have hf := hform seg hmem (Or.inl hlt)
    have hwseg := onlySpaceNewline_of_subset hws (mem_segments_line line seg hmem)
    constructor
    · rw [hinf, hhead]
      simp only [if_pos hlt]
      exact (stage_targets_in none none seg hf hwseg hlt).1
    · intro hglob j
      rw [hcell, ← List.head?_eq_getElem?, hhead]
      simp only [Option.some_bind]
      rw [stageArgs_redir dir seg hf hwseg, flatMap_expandToken_plain dir _ hglob]
  · intro seg hlast hgt
    have hmem : seg ∈ segments line := List.mem_of_mem_getLast? hlast
    have hf := hform seg hmem (Or.inr hgt)
    have hwseg := onlySpaceNewline_of_subset hws (mem_segments_line line seg hmem)
    have hlt := not_lt_of_gt_redir seg hf hgt
    constructor
    · rw [houtf, hlast]
      simp only [if_pos (And.intro hlt hgt)]
      exact (stage_targets_out none none seg hf hwseg hlt hgt).2
    · intro hglob j
      rw [hcell, ← List.getLast?_eq_getElem?, hlast]
      simp only [Option.some_bind]
      rw [stageArgs_redir dir seg hf hwseg, flatMap_expandToken_plain dir _ hglob]
  · intro hno
    rw [hinf]
    cases hh : (segments line).head? with
    | none => rfl
    | some seg => simp only [if_neg (hno seg (List.mem_of_mem_head? hh))]
  · intro hno
    rw [houtf]
    cases hh : (segments line).getLast? with
    | none => rfl
    | some seg =>
      have : ¬ ('<' ∉ seg ∧ '>' ∈ seg) := fun h => hno seg (List.mem_of_mem_getLast? hh) h.2
      simp only [if_neg this]

/-- C2, witness: `cat < in.txt | wc -l > out.txt` gives both targets and the
rows `cat` and `wc -l`. -/
theorem parse_line_redirect_witness :
    (parse_line [] lineCatWc resetCommands none none).ret = 2 ∧
    (parse_line [] lineCatWc resetCommands none none).infile = some "in.txt".toList ∧
    (parse_line [] lineCatWc resetCommands none none).outfile = some "out.txt".toList ∧
    (parse_line [] lineCatWc resetCommands none none).commands 1 1 = some ['-', 'l'] := by
  have h := parse_line_redirect [] lineCatWc none none
    (by unfold OnlySpaceNewline; decide) (by unfold RedirForm; decide) (by decide) (by decide)
  refine ⟨?_, ?_, ?_, ?_⟩
  · rw [h.1]; decide
  · rw [(h.2.1 "cat < in.txt ".toList (by decide) (by decide)).1]; decide
  · rw [(h.2.2.1 " wc -l > out.txt\n".toList (by decide) (by decide)).1]; decide
  · have := (h.2.2.1 " wc -l > out.txt\n".toList (by decide) (by decide)).2 (by decide) 1
    rw [show (segments lineCatWc).length - 1 = 1 by decide] at this
    rw [this]; decide

/-- C2, counterexample.  `ls *.c > out` is one stage of the form
`words > target` whose words are `ls` and `*.c`, yet with `b.c` in the directory
the second argument stored is `b.c`; and `cat < a<TAB>b` is one stage of the
form `words < target` whose first whitespace-delimited token after the operator
is `a`, yet `infile` is `a<TAB>b`. -/
theorem parse_line_redirect_counterexample :
    (segments lineLsGlob = [lineLsGlob] ∧ RedirForm lineLsGlob ∧ '>' ∈ lineLsGlob ∧
      words (leftOf lineLsGlob) = [['l', 's'], ['*', '.', 'c']] ∧
      (parse_line listingAC lineLsGlob resetCommands none none).commands 0 1 =
        some ['b', '.', 'c']) ∧
    (segments lineCatTab = [lineCatTab] ∧ RedirForm lineCatTab ∧ '<' ∈ lineCatTab ∧
      (words (rightOf lineCatTab)).head? = some ['a'] ∧
      (parse_line [] lineCatTab resetCommands none none).infile = some ['a', '\t', 'b']) := by
  refine ⟨⟨by decide, by unfold RedirForm; decide, by decide, by decide, by decide⟩,
    ⟨by decide, by unfold RedirForm; decide, by decide, by decide, by decide⟩⟩


/-! ## Bounds -/

theorem cellOf_eq_none_of_bounds (rows : List (List Str)) (m n k j : Nat)
    (hm : rows.length ≤ m) (hn : ∀ r ∈ rows, r.length ≤ n) (hout : ¬ (k < m ∧ j < n)) :
    cellOf rows k j = none := by
  unfold cellOf
  cases hk : rows[k]? with
  | none => rfl
  | some r =>
    obtain ⟨hklt, hkeq⟩ := List.getElem?_eq_some_iff.1 hk
    have hmem : r ∈ rows := hkeq ▸ List.getElem_mem hklt
    have := hn r hmem
    simp only [Option.some_bind]
    exact List.getElem?_eq_none (by omega)

/-- C6 (amended). `parse_line` has no error return: on every line its return
value is the number of stages that yield an argument, so it is never negative,
whatever the number of stages and of arguments.  The bounds are a precondition:
when at most `MAX_PIPELINE` stages yield an argument and each yields at most
`MAX_ARGS` arguments (typed or produced by glob expansion), every cell outside
`commands[MAX_PIPELINE][MAX_ARGS]` keeps the value it had. -/
theorem parse_line_never_negative (dir : List Str) (line : Str) (c : Commands)
    (infile outfile : Option Str) :
    0 ≤ (parse_line dir line c infile outfile).ret ∧
    (parse_line dir line c infile outfile).ret =
      ((stageRows dir (beforeComment line)).length : Nat) ∧
    ((stageRows dir (beforeComment line)).length ≤ MAX_PIPELINE →
      (∀ r ∈ stageRows dir (beforeComment line), r.length ≤ MAX_ARGS) →
      ∀ k j, ¬ (k < MAX_PIPELINE ∧ j < MAX_ARGS) →
        (parse_line dir line c infile outfile).commands k j = c k j) := by
  rw [parse_line_eq]
  unfold beforeComment
  refine ⟨Int.natCast_nonneg _, rfl, ?_⟩
  intro hm hn k j hout
  simp only [writeRows_apply, Nat.zero_le, if_true, Nat.sub_zero]
  rw [cellOf_eq_none_of_bounds _ _ _ k j hm hn hout]

/-- C6, witness: on `ls -l | wc # count` the two rows are within bounds and the
cell `commands[32][0]` stays `NULL`. -/
theorem parse_line_never_negative_witness :
    0 ≤ (parse_line [] lineLsWc resetCommands none none).ret ∧
    (parse_line [] lineLsWc resetCommands none none).commands 32 0 = none := by
  have h := parse_line_never_negative [] lineLsWc resetCommands none none
  exact ⟨h.1, h.2.2 (by decide) (by decide) 32 0 (by decide)⟩

/-- C6, counterexample.  A line of 33 stages makes `parse_line` return 33, not a
negative code, and store into row 32, past the last row of the array; a stage
of 17 words makes it return 1 and store into column 16, past the last column. -/
theorem parse_line_bounds_counterexample :
    (parse_line [] line33Stages resetCommands none none).ret = 33 ∧
    (parse_line [] line33Stages resetCommands none none).commands MAX_PIPELINE 0 = some ['a'] ∧
    (parse_line [] line17Args resetCommands none none).ret = 1 ∧
    (parse_line [] line17Args resetCommands none none).commands 0 MAX_ARGS = some ['a'] := by
  refine ⟨by decide, by decide, by decide, by decide⟩


/-! ## Path resolution in `run_command` -/

theorem path_loop_spec (w : World) (forked : Bool) (cmd : Str) (rest : List Str)
    (stdin stdout : Int) (table : List Str) (done : List Action)
    (hdone : Action.fork ∉ done) :
    match table.find? (fun dirp => w.file_exists (dirp ++ '/' :: cmd)) with
    | some dirp =>
      (path_loop w forked cmd rest stdin stdout table done).ret = 0 ∧
      (path_loop w forked cmd rest stdin stdout table done).child =
        (if forked then
          some [Action.dup2 stdin 0, Action.dup2 stdout 1,
            Action.execve (dirp ++ '/' :: cmd) (cmd :: rest)]
        else none) ∧
      Action.fork ∈ (path_loop w forked cmd rest stdin stdout table done).parent
    | none =>
      (path_loop w forked cmd rest stdin stdout table done).ret = -2 ∧
      (path_loop w forked cmd rest stdin stdout table done).child = none ∧
      Action.fork ∉ (path_loop w forked cmd rest stdin stdout table done).parent := by
  induction table generalizing done with
  | nil => exact ⟨rfl, rfl, hdone⟩
  | cons dirp more ih =>
    by_cases h : w.file_exists (dirp ++ '/' :: cmd) = true
    · simp only [List.find?_cons, h, path_loop, if_true]
      refine ⟨trivial, trivial, ?_⟩
      simp
    · rw [Bool.not_eq_true] at h
      simp only [List.find?_cons, h, path_loop, Bool.false_eq_true, if_false]
      apply ih
      simp [hdone]

/-- For a command that does not start with `.` or `/` and that the builtin
dispatcher does not handle, `run_command` is the loop over the path table. -/
theorem run_command_bare (w : World) (forked : Bool) (cmd : Str) (rest : List Str)
    (stdin stdout : Int) (hdot : cmd.head? ≠ some '.') (hslash : cmd.head? ≠ some '/')
    (hb : w.found_builtin (cmd :: rest) = 0) :
    run_command w forked cmd rest stdin stdout =
      path_loop w forked cmd rest stdin stdout w.path_table
        [Action.handle_builtin (cmd :: rest) stdin stdout] := by
  unfold run_command
  rw [if_neg (by rintro (h | h) <;> [exact hdot h; exact hslash h]), if_pos hb]

/-- C4. For a command that does not start with `.` or `/` and that the builtin
dispatcher does not handle, path resolution in `run_command` is find-first over
the path table: when some entry `dirp` is the first for which the file
`dirp/cmd` exists, `run_command` forks, the child (when created) execs exactly
that path, and 0 is returned; when no entry has the file, `run_command` does not
fork, no child exists, and -2 is returned. -/
theorem run_command_path_search (w : World) (forked : Bool) (cmd : Str) (rest : List Str)
    (stdin stdout : Int) (hdot : cmd.head? ≠ some '.') (hslash : cmd.head? ≠ some '/')
    (hb : w.found_builtin (cmd :: rest) = 0) :
    match w.path_table.find? (fun dirp => w.file_exists (dirp ++ '/' :: cmd)) with
    | some dirp =>
      (run_command w forked cmd rest stdin stdout).ret = 0 ∧
      (run_command w forked cmd rest stdin stdout).child =
        (if forked then
          some [Action.dup2 stdin 0, Action.dup2 stdout 1,
            Action.execve (dirp ++ '/' :: cmd) (cmd :: rest)]
        else none) ∧
      Action.fork ∈ (run_command w forked cmd rest stdin stdout).parent
    | none =>
      (run_command w forked cmd rest stdin stdout).ret = -2 ∧
      (run_command w forked cmd rest stdin stdout).child = none ∧
      Action.fork ∉ (run_command w forked cmd rest stdin stdout).parent := by
  rw [run_command_bare w forked cmd rest stdin stdout hdot hslash hb]
  exact path_loop_spec w forked cmd rest stdin stdout w.path_table _ (by simp)

/-- C4, witness: with the path table `/a`, `/b` and `tool` present in both, the
child execs `/a/tool`. -/
theorem run_command_path_search_witness :
    (run_command worldAB true "tool".toList [] 0 1).ret = 0 ∧
    (run_command worldAB true "tool".toList [] 0 1).child =
      some [Action.dup2 0 0, Action.dup2 1 1,
        Action.execve "/a/tool".toList ["tool".toList]] := by
  have h := run_command_path_search worldAB true "tool".toList [] 0 1
    (by decide) (by decide) (by decide)
  exact ⟨h.1, h.2.1⟩

/-! ## Direct paths in `run_command` -/

/-- C7, the code at the failing input.  For `./missing_binary`, a direct path
that does not exist, `run_command` calls `stat`, does not fork, and returns 0;
the pipeline section of `main` ends with `ret = 0`, so no failure is reported.
For the bare name `missing_binary` the sibling path returns -2. -/
theorem run_command_missing_direct_path :
    (run_command worldBin true "./missing_binary".toList [] 0 1).ret = 0 ∧
    (run_command worldBin true "./missing_binary".toList [] 0 1).parent =
      [Action.stat "./missing_binary".toList] ∧
    (run_command worldBin true "./missing_binary".toList [] 0 1).child = none ∧
    (run_pipeline worldBin (fun _ => ("./missing_binary".toList, [])) 1 none none fds012).ret
      = 0 ∧
    (run_command worldBin true "missing_binary".toList [] 0 1).ret = -2 := by
  refine ⟨by decide, by decide, by decide, by decide, by decide⟩

/-- C8, the code at the failing input.  In `ls | ./prog` the second stage is
given the read end of the pipe (descriptor 3) as standard input, but the child
created for the direct path `./prog` calls `execve` without any `dup2`; the
child created for `wc`, resolved through the path table, with the same
descriptors does both `dup2` calls first. -/
theorem run_command_direct_path_no_dup2 :
    (run_pipeline worldBin
        (fun i => if i = 0 then ("ls".toList, []) else ("./prog".toList, []))
        2 none none fds012).calls.map (fun c => (c.stage, c.stdin, c.stdout, c.result.child)) =
      [(0, 0, 4, some [Action.dup2 0 0, Action.dup2 4 1,
          Action.execve "/bin/ls".toList ["ls".toList]]),
        (1, 3, 1, some [Action.execve "./prog".toList ["./prog".toList]])] ∧
    (run_command worldBin true "wc".toList [] 3 1).child =
      some [Action.dup2 3 0, Action.dup2 1 1, Action.execve "/bin/wc".toList ["wc".toList]] := by
  refine ⟨by decide, by decide⟩


/-! ## The stage loop of `main` -/

theorem call_run_spec (w : World) (parsed : Nat → Str × List Str) (i : Nat)
    (stdin stdout : Int) (s : Shell) :
    (call_run w parsed i stdin stdout s).calls =
      s.calls ++ [⟨i, (parsed i).1, (parsed i).2, stdin, stdout,
        run_command w (w.fork_ok i) (parsed i).1 (parsed i).2 stdin stdout⟩] ∧
    (call_run w parsed i stdin stdout s).ret =
      (run_command w (w.fork_ok i) (parsed i).1 (parsed i).2 stdin stdout).ret :=
  ⟨rfl, rfl⟩

/-- One pass through the body of the stage loop makes one call of `run_command`,
wired as the `pipes` array says, and stores its return value in `ret`. -/
theorem run_stage_spec (w : World) (parsed : Nat → Str × List Str) (steps : Nat)
    (pipes : List Int) (infile outfile : Option Str) (i : Nat) (s : Shell) :
    ∃ c : StageCall,
      (run_stage w parsed steps pipes infile outfile i s).calls = s.calls ++ [c] ∧
      (run_stage w parsed steps pipes infile outfile i s).ret = c.result.ret ∧
      c.stage = i ∧ Wired w parsed steps pipes c := by
  unfold run_stage
  by_cases h0 : i = 0
  · subst h0
    simp only [if_true]
    cases infile with
    | some f =>
      refine ⟨_, rfl, rfl, rfl, rfl, rfl, fun h => absurd h (by simp), ?_⟩
      intro h
      simp only [Nat.zero_add] at h
      have : steps ≠ 1 := by omega
      simp [this]
    | none =>
      have hplain : ∃ c : StageCall,
          (call_run w parsed 0 0 (if steps = 1 then 1 else pipes.getD 1 (-1)) s).calls
            = s.calls ++ [c] ∧
          (call_run w parsed 0 0 (if steps = 1 then 1 else pipes.getD 1 (-1)) s).ret
            = c.result.ret ∧
          c.stage = 0 ∧ Wired w parsed steps pipes c := by
        refine ⟨_, rfl, rfl, rfl, rfl, rfl, fun h => absurd h (by simp), ?_⟩
        intro h
        simp only [Nat.zero_add] at h
        have : steps ≠ 1 := by omega
        simp [this]
      cases outfile with
      | none => exact hplain
      | some g =>
        by_cases h1 : steps = 1
        · simp only [h1, if_true]
          refine ⟨_, rfl, rfl, rfl, rfl, rfl, fun h => absurd h (by simp), ?_⟩
          intro h
          simp only [Nat.zero_add] at h
          omega
        · simp only [h1, if_false] at hplain ⊢
          exact hplain
  · simp only [h0, if_false]
    by_cases hl : i = steps - 1
    · simp only [hl, if_true]
      cases outfile with
      | some g =>
        refine ⟨_, rfl, rfl, rfl, rfl, rfl, fun _ => rfl, ?_⟩
        intro h
        simp only at h
        omega
      | none =>
        refine ⟨_, rfl, rfl, rfl, rfl, rfl, fun _ => rfl, ?_⟩
        intro h
        simp only at h
        omega
    · simp only [hl, if_false]
      exact ⟨_, rfl, rfl, rfl, rfl, rfl, fun _ => rfl, fun _ => rfl⟩

/-- The stage loop makes one call per stage, in stage order, each wired as the
`pipes` array says; `ret` ends on the return value of the last call. -/
theorem stage_iter_spec (w : World) (parsed : Nat → Str × List Str) (steps : Nat)
    (pipes : List Int) (infile outfile : Option Str) (n i : Nat) (s : Shell) :
    ∃ l : List StageCall,
      (stage_iter w parsed steps pipes infile outfile n i s).calls = s.calls ++ l ∧
      l.length = n ∧
      (∀ j, j < n → ∃ c, l[j]? = some c ∧ c.stage = i + j ∧ Wired w parsed steps pipes c) ∧
      (stage_iter w parsed steps pipes infile outfile n i s).ret =
        (l.getLast?.map (fun c => c.result.ret)).getD s.ret := by
  induction n generalizing i s with
  | zero => exact ⟨[], by simp [stage_iter], rfl, fun j hj => absurd hj (by omega), rfl⟩
  | succ n ih =>
    obtain ⟨c, hc1, hc2, hc3, hc4⟩ := run_stage_spec w parsed steps pipes infile outfile i s
    obtain ⟨l, hl1, hl2, hl3, hl4⟩ :=
      ih (i + 1) (run_stage w parsed steps pipes infile outfile i s)
    refine ⟨c :: l, ?_, by simp [hl2], ?_, ?_⟩
    · simp only [stage_iter, hl1, hc1, List.append_assoc, List.singleton_append]
    · intro j hj
      cases j with
      | zero => exact ⟨c, by simp, by simpa using hc3, hc4⟩
      | succ j =>
        obtain ⟨c', h1, h2, h3⟩ := hl3 j (by omega)
        exact ⟨c', by simpa using h1, by omega, h3⟩
    · simp only [stage_iter, hl4, hc2, List.getLast?_cons]
      cases l.getLast? <;> rfl

theorem make_pipes_length (t : FdTable) (n k : Nat) : (make_pipes t n k).2.length = 2 * n := by
  induction n generalizing t k with
  | zero => rfl
  | succ n ih =>
    simp only [make_pipes, List.length_cons, ih]
    omega

/-- The calls, the `pipes` array and `ret` of a pipeline of at least one stage. -/
theorem run_pipeline_spec (w : World) (parsed : Nat → Str × List Str) (steps : Nat)
    (infile outfile : Option Str) (fds : FdTable) (hsteps : 0 < steps) :
    (run_pipeline w parsed steps infile outfile fds).pipes =
      (make_pipes fds (steps - 1) 0).2 ∧
    (run_pipeline w parsed steps infile outfile fds).calls.length = steps ∧
    (∀ j, j < steps → ∃ c, (run_pipeline w parsed steps infile outfile fds).calls[j]? = some c ∧
      c.stage = j ∧
      Wired w parsed steps (run_pipeline w parsed steps infile outfile fds).pipes c) ∧
    (run_pipeline w parsed steps infile outfile fds).ret =
      ((run_pipeline w parsed steps infile outfile fds).calls.getLast?.map
        (fun c => c.result.ret)).getD 0 := by
  unfold run_pipeline
  simp only [if_pos hsteps]
  obtain ⟨l, hl1, hl2, hl3, hl4⟩ := stage_iter_spec w parsed steps
    (make_pipes fds (steps - 1) 0).2 infile outfile steps 0
    ⟨(sys_dup (sys_dup (make_pipes fds (steps - 1) 0).1 0).1 1).1, 0, []⟩
  simp only [List.nil_append] at hl1
  rw [hl1]
  refine ⟨trivial, hl2, ?_, hl4⟩
  intro j hj
  obtain ⟨c, h1, h2, h3⟩ := hl3 j hj
  exact ⟨c, h1, by omega, h3⟩


/-! ## The descriptor table -/

theorem getD_put (t : FdTable) (n : Nat) (r : Option Res) (m : Nat) :
    (t.put n r).getD m none = if m = n then r else t.getD m none := by
  unfold FdTable.put
  simp only [List.getD_eq_getElem?_getD]
  by_cases hn : n < t.length
  · rw [if_pos hn, List.getElem?_set]
    by_cases hm : m = n
    · subst hm
      simp [hn]
    · have : ¬ n = m := fun h => hm h.symm
      simp [hm, this]
  · rw [if_neg hn]
    by_cases hm : m = n
    · subst hm
      have hlen : (t ++ List.replicate (m - t.length) none).length = m := by
        simp only [List.length_append, List.length_replicate]
        omega
      rw [if_pos rfl, List.getElem?_append_right (by omega), hlen]
      simp
    · rw [if_neg hm, List.getElem?_append, List.getElem?_append]
      simp only [List.length_append, List.length_replicate]
      by_cases h1 : m < t.length
      · have h2 : m < t.length + (n - t.length) := by omega
        simp [h1, h2]
      · have h3 : t[m]? = none := List.getElem?_eq_none (by omega)
        rw [h3]
        by_cases h2 : m < t.length + (n - t.length)
        · simp only [h2, h1, if_true, if_false, List.getElem?_replicate]
          split <;> rfl
        · simp only [h2, if_false]
          have : m - (t.length + (n - t.length)) ≠ 0 := by omega
          cases hk : m - (t.length + (n - t.length)) with
          | zero => exact absurd hk this
          | succ k => simp

theorem getD_lowestFree (t : FdTable) : t.getD (lowestFree t) none = none := by
  unfold lowestFree
  simp only [List.getD_eq_getElem?_getD]
  by_cases h : t.findIdx (fun s => s.isNone) < t.length
  · have := List.findIdx_getElem (w := h)
    rw [List.getElem?_eq_getElem h]
    simp only [Option.getD_some]
    exact Option.isNone_iff_eq_none.1 this
  · rw [List.getElem?_eq_none (by omega)]
    rfl

theorem lookup_natCast (t : FdTable) (n : Nat) : t.lookup (n : Int) = t.getD n none := by
  unfold FdTable.lookup
  rw [if_pos (Int.natCast_nonneg n), Int.toNat_natCast]

/-- A new descriptor refers to what it was allocated for, and the descriptors
that were open refer to what they did. -/
theorem sys_alloc_spec (t : FdTable) (res : Res) :
    (sys_alloc t res).1.lookup (sys_alloc t res).2 = some res ∧
    (∃ n : Nat, (sys_alloc t res).2 = (n : Int)) ∧
    ∀ m x, t.getD m none = some x → (sys_alloc t res).1.getD m none = some x := by
  unfold sys_alloc
  refine ⟨?_, ⟨lowestFree t, rfl⟩, ?_⟩
  · simp only [lookup_natCast, getD_put, if_true]
  · intro m x hm
    simp only [getD_put]
    have : m ≠ lowestFree t := by
      intro h
      rw [h, getD_lowestFree] at hm
      exact absurd hm (by simp)
    rw [if_neg this, hm]

theorem sys_pipe_spec (t : FdTable) (k : Nat) :
    (sys_pipe t k).1.lookup (sys_pipe t k).2.1 = some (Res.pipe_read k) ∧
    (sys_pipe t k).1.lookup (sys_pipe t k).2.2 = some (Res.pipe_write k) ∧
    ∀ m x, t.getD m none = some x → (sys_pipe t k).1.getD m none = some x := by
  unfold sys_pipe
  obtain ⟨ha1, ⟨n, ha2⟩, ha3⟩ := sys_alloc_spec t (Res.pipe_read k)
  obtain ⟨hb1, -, hb3⟩ := sys_alloc_spec (sys_alloc t (Res.pipe_read k)).1 (Res.pipe_write k)
  refine ⟨?_, hb1, fun m x hm => hb3 m x (ha3 m x hm)⟩
  simp only
  rw [ha2, lookup_natCast] at ha1 ⊢
  exact hb3 n _ ha1

/-- After the loop that creates the pipes, entry `2 * j` of the `pipes` array
is the read end and entry `2 * j + 1` the write end of pipe `k + j`, and the
descriptors that were open refer to what they did. -/
theorem make_pipes_ends (t : FdTable) (n k : Nat) :
    (∀ m x, t.getD m none = some x → (make_pipes t n k).1.getD m none = some x) ∧
    ∀ j, j < n →
      (make_pipes t n k).1.lookup ((make_pipes t n k).2.getD (2 * j) (-1)) =
        some (Res.pipe_read (k + j)) ∧
      (make_pipes t n k).1.lookup ((make_pipes t n k).2.getD (2 * j + 1) (-1)) =
        some (Res.pipe_write (k + j)) := by
  induction n generalizing t k with
  | zero => exact ⟨fun m x h => h, fun j hj => absurd hj (by omega)⟩
  | succ n ih =>
    obtain ⟨hp1, hp2, hp3⟩ := sys_pipe_spec t k
    obtain ⟨ih1, ih2⟩ := ih (sys_pipe t k).1 (k + 1)
    have keep : ∀ (fd : Int) (x : Res), (sys_pipe t k).1.lookup fd = some x →
        (make_pipes (sys_pipe t k).1 n (k + 1)).1.lookup fd = some x := by
      intro fd x hfd
      unfold FdTable.lookup at hfd ⊢
      by_cases h0 : 0 ≤ fd
      · rw [if_pos h0] at hfd ⊢
        exact ih1 _ _ hfd
      · rw [if_neg h0] at hfd
        exact absurd hfd (by simp)
    refine ⟨fun m x hm => ih1 m x (hp3 m x hm), ?_⟩
    intro j hj
    cases j with
    | zero =>
      simp only [make_pipes, Nat.mul_zero, List.getD_cons_zero, Nat.zero_add, Nat.add_zero]
      exact ⟨keep _ _ hp1, by simpa using keep _ _ hp2⟩
    | succ j =>
      obtain ⟨h1, h2⟩ := ih2 j (by omega)
      have e1 : 2 * (j + 1) = (2 * j) + 1 + 1 := by omega
      have e2 : 2 * (j + 1) + 1 = (2 * j + 1) + 1 + 1 := by omega
      have e3 : k + (j + 1) = k + 1 + j := by omega
      simp only [make_pipes, e1, e2, e3, List.getD_cons_succ]
      exact ⟨h1, h2⟩


/-! ## The pipeline section of `main` -/

/-- C5. For a pipeline of `steps ≥ 1` stages, whatever the input and output
files: the loop that creates the pipes fills `2 * (steps - 1)` entries of the
`pipes` array, two per pipe, so `steps - 1` pipes are created; and for every
`i` with `0 < i < steps` the standard output passed to `run_command` for stage
`i - 1` is `pipes[2*(i-1)+1]`, the write end of pipe `i - 1`, and the standard
input passed for stage `i` is `pipes[2*(i-1)]`, the read end of the same pipe. -/
theorem pipeline_wiring (w : World) (parsed : Nat → Str × List Str) (steps : Nat)
    (infile outfile : Option Str) (fds : FdTable) (hsteps : 1 ≤ steps) :
    (run_pipeline w parsed steps infile outfile fds).pipes.length = 2 * (steps - 1) ∧
    ∀ i, 0 < i → i < steps →
      ∃ a b, (run_pipeline w parsed steps infile outfile fds).calls[i - 1]? = some a ∧
        (run_pipeline w parsed steps infile outfile fds).calls[i]? = some b ∧
        a.stage = i - 1 ∧ b.stage = i ∧
        a.stdout =
          (run_pipeline w parsed steps infile outfile fds).pipes.getD (2 * (i - 1) + 1) (-1) ∧
        b.stdin =
          (run_pipeline w parsed steps infile outfile fds).pipes.getD (2 * (i - 1)) (-1) ∧
        (make_pipes fds (steps - 1) 0).1.lookup a.stdout = some (Res.pipe_write (i - 1)) ∧
        (make_pipes fds (steps - 1) 0).1.lookup b.stdin = some (Res.pipe_read (i - 1)) := by
  obtain ⟨hp, -, hc, -⟩ := run_pipeline_spec w parsed steps infile outfile fds (by omega)
  refine ⟨by rw [hp, make_pipes_length], ?_⟩
  intro i hi0 hi
  obtain ⟨a, ha1, ha2, -, -, -, ha3⟩ := hc (i - 1) (by omega)
  obtain ⟨b, hb1, hb2, -, -, hb3, -⟩ := hc i hi
  obtain ⟨he1, he2⟩ := (make_pipes_ends fds (steps - 1) 0).2 (i - 1) (by omega)
  have hout : a.stdout =
      (run_pipeline w parsed steps infile outfile fds).pipes.getD (2 * (i - 1) + 1) (-1) := by
    rw [ha3 (by omega), ha2, Nat.mul_comm]
  have hin : b.stdin =
      (run_pipeline w parsed steps infile outfile fds).pipes.getD (2 * (i - 1)) (-1) := by
    rw [hb3 (by omega), hb2, Nat.mul_comm]
  refine ⟨a, b, ha1, hb1, ha2, hb2, hout, hin, ?_, ?_⟩
  · rw [hout, hp]
    simpa using he2
  · rw [hin, hp]
    simpa using he1

/-- C5, witness: in `ls < in | wc > out` one pipe is created, with read end 3
and write end 4; stage 0 is given 4 as standard output and stage 1 is given 3
as standard input. -/
theorem pipeline_wiring_witness :
    (run_pipeline worldBin rowsLsWc 2 (some "in".toList) (some "out".toList) fds012).pipes
      = [3, 4] ∧
    ∃ a b,
      (run_pipeline worldBin rowsLsWc 2 (some "in".toList) (some "out".toList) fds012).calls[0]?
        = some a ∧
      (run_pipeline worldBin rowsLsWc 2 (some "in".toList) (some "out".toList) fds012).calls[1]?
        = some b ∧
      a.stdout = 4 ∧ b.stdin = 3 := by
  obtain ⟨a, b, h1, h2, -, -, h5, h6, -, -⟩ :=
    (pipeline_wiring worldBin rowsLsWc 2 (some "in".toList) (some "out".toList) fds012
      (by decide)).2 1 (by decide) (by decide)
  have hp : (run_pipeline worldBin rowsLsWc 2 (some "in".toList) (some "out".toList)
      fds012).pipes = [3, 4] := by decide
  refine ⟨hp, a, b, h1, h2, ?_, ?_⟩
  · rw [h5, hp]; rfl
  · rw [h6, hp]; rfl

/-- C9 (amended). The value `ret` that `main` tests after the stage loop is the
value `run_command` returned for the last stage; what earlier stages returned
is overwritten.  It is -2 when the command of the last stage does not start
with `.` or `/`, is not handled by the builtin dispatcher and exists under no
entry of the path table, and -1 when the builtin dispatcher reports -1 for it. -/
theorem pipeline_ret_last_stage (w : World) (parsed : Nat → Str × List Str) (steps : Nat)
    (infile outfile : Option Str) (fds : FdTable) (hsteps : 0 < steps) :
    ∃ c, (run_pipeline w parsed steps infile outfile fds).calls.getLast? = some c ∧
      c.stage = steps - 1 ∧ (c.cmd, c.rest) = parsed (steps - 1) ∧
      c.result = run_command w (w.fork_ok (steps - 1)) c.cmd c.rest c.stdin c.stdout ∧
      (run_pipeline w parsed steps infile outfile fds).ret = c.result.ret ∧
      (c.cmd.head? ≠ some '.' → c.cmd.head? ≠ some '/' →
        w.found_builtin (c.cmd :: c.rest) = 0 →
        (∀ dirp ∈ w.path_table, w.file_exists (dirp ++ '/' :: c.cmd) = false) →
        (run_pipeline w parsed steps infile outfile fds).ret = -2) ∧
      (c.cmd.head? ≠ some '.' → c.cmd.head? ≠ some '/' →
        w.found_builtin (c.cmd :: c.rest) = -1 →
        (run_pipeline w parsed steps infile outfile fds).ret = -1) := by
  obtain ⟨-, hlen, hc, hret⟩ := run_pipeline_spec w parsed steps infile outfile fds hsteps
  obtain ⟨c, hc1, hc2, hc3, hc4, -, -⟩ := hc (steps - 1) (by omega)
  have hlast : (run_pipeline w parsed steps infile outfile fds).calls.getLast? = some c := by
    rw [List.getLast?_eq_getElem?, hlen, hc1]
  have hr : (run_pipeline w parsed steps infile outfile fds).ret = c.result.ret := by
    rw [hret, hlast]; rfl
  refine ⟨c, hlast, hc2, by rw [hc3, hc2], by rw [hc4, hc2], hr, ?_, ?_⟩
  · intro hdot hslash hb hnone
    rw [hr, hc4, run_command_bare w _ c.cmd c.rest c.stdin c.stdout hdot hslash hb]
    have hfind : w.path_table.find? (fun dirp => w.file_exists (dirp ++ '/' :: c.cmd)) = none := by
      rw [List.find?_eq_none]
      intro dirp hmem
      rw [hnone dirp hmem]
      simp
    have := path_loop_spec w (w.fork_ok c.stage) c.cmd c.rest c.stdin c.stdout w.path_table
      [Action.handle_builtin (c.cmd :: c.rest) c.stdin c.stdout] (by simp)
    rw [hfind] at this
    exact this.1
  · intro hdot hslash hb
    rw [hr, hc4]
    unfold run_command
    rw [if_neg (by rintro (h | h) <;> [exact hdot h; exact hslash h]),
      if_neg (by rw [hb]; decide), if_pos hb]

/-- C9, witness: for `ls | nosuch` the value `ret` is -2. -/
theorem pipeline_ret_last_stage_witness :
    (run_pipeline worldBin (fun i => if i = 0 then ("ls".toList, []) else ("nosuch".toList, []))
      2 none none fds012).ret = -2 := by
  obtain ⟨c, -, -, h3, -, -, h6, -⟩ := pipeline_ret_last_stage worldBin
    (fun i => if i = 0 then ("ls".toList, []) else ("nosuch".toList, [])) 2 none none fds012
    (by decide)
  have hcmd : c.cmd = "nosuch".toList := congrArg Prod.fst h3
  have hrest : c.rest = [] := congrArg Prod.snd h3
  exact h6 (by rw [hcmd]; decide) (by rw [hcmd]; decide) rfl
    (by rw [hcmd]; decide)

/-- C9, counterexample.  In `nosuch | ls` the first stage cannot be resolved (no
entry of the path table has the file, and `run_command` returns -2 for it), yet
the value `ret` that `main` tests after the loop is 0. -/
theorem pipeline_ret_counterexample :
    (∀ dirp ∈ worldBin.path_table,
      worldBin.file_exists (dirp ++ '/' :: "nosuch".toList) = false) ∧
    (run_pipeline worldBin rowsNosuchLs 2 none none fds012).calls.map
      (fun c => (c.stage, c.result.ret)) = [(0, -2), (1, 0)] ∧
    (run_pipeline worldBin rowsNosuchLs 2 none none fds012).ret = 0 := by
  refine ⟨by decide, by decide, by decide⟩

/-- C10, the code at the failing input.  A shell with descriptors 0, 1 and 2
runs `ls | wc`: the pipe gets descriptors 3 (read end) and 4 (write end), and
after the pipeline descriptor 3 is still open on the read end of the pipe, so
the open descriptors are 0, 1, 2, 3 instead of 0, 1, 2.  After `ls | wc | wc`
both read ends, 3 and 5, are still open. -/
theorem pipeline_leaks_read_end :
    openFds fds012 = [0, 1, 2] ∧
    (run_pipeline worldBin rowsLsWc 2 none none fds012).pipes = [3, 4] ∧
    openFds (run_pipeline worldBin rowsLsWc 2 none none fds012).fds = [0, 1, 2, 3] ∧
    (run_pipeline worldBin rowsLsWc 2 none none fds012).fds.lookup 3 = some (Res.pipe_read 0) ∧
    (run_pipeline worldBin rowsLsWcWc 3 none none fds012).pipes = [3, 4, 5, 6] ∧
    openFds (run_pipeline worldBin rowsLsWcWc 3 none none fds012).fds = [0, 1, 2, 3, 5] := by
  refine ⟨by decide, by decide, by decide, by decide, by decide, by decide⟩


/-! ## Which tokens are handed to `expand_glob` -/

theorem strstr_cons (x : Char) (s needle : Str) :
    strstr (x :: s) needle = (needle.isPrefixOf (x :: s) || strstr s needle) := by
  simp [strstr, List.tails]

/-- A token `*suffix` contains `*.` exactly when the suffix starts with `.` or
contains `*.` itself. -/
theorem star_token_gate (suffix : Str) :
    strstr ('*' :: suffix) ['*', '.'] = true ↔
      suffix.head? = some '.' ∨ strstr suffix ['*', '.'] = true := by
  rw [strstr_cons, Bool.or_eq_true]
  apply or_congr_left
  cases suffix with
  | nil => simp [List.isPrefixOf]
  | cons y ys =>
    simp only [List.isPrefixOf, List.head?_cons, Option.some.injEq, Bool.and_true,
      Bool.and_eq_true, beq_iff_eq, true_and]
    exact eq_comm

/-- C11 (amended). `parse_line` hands a token to `expand_glob` exactly when the
token contains `*.`.  For a token `*suffix` this is the case exactly when the
suffix starts with `.` or contains `*.`; then, for every directory listing with
at least one name that contains the suffix and does not start with `.`, one
pass of the token loop stores the matching names in place of the token.  A
token `*suffix` that does not contain `*.` is stored literally, whatever the
listing. -/
theorem glob_gate (listing : List Str) (suffix : Str) (i fuel : Nat) (ptr : Str)
    (c : Commands) (j : Nat) :
    (strstr ('*' :: suffix) ['*', '.'] = true ↔
      suffix.head? = some '.' ∨ strstr suffix ['*', '.'] = true) ∧
    (strstr ('*' :: suffix) ['*', '.'] = true → globNames listing suffix ≠ [] →
      token_loop listing i (fuel + 1) (some ('*' :: suffix)) ptr c j =
        token_loop listing i fuel (strtok_r ptr [' ', '\n']).1 (strtok_r ptr [' ', '\n']).2
          (writeRow c i j (globNames listing suffix))
          (j + (globNames listing suffix).length)) ∧
    (strstr ('*' :: suffix) ['*', '.'] = false →
      token_loop listing i (fuel + 1) (some ('*' :: suffix)) ptr c j =
        token_loop listing i fuel (strtok_r ptr [' ', '\n']).1 (strtok_r ptr [' ', '\n']).2
          (c.set i j ('*' :: suffix)) (j + 1)) := by
  refine ⟨star_token_gate suffix, ?_, ?_⟩
  · intro hgate hne
    simp only [token_loop]
    rw [token_step_eq]
    simp [expandToken, hgate, filter_glob_matches, hne]
  · intro hgate
    simp only [token_loop]
    rw [token_step_eq]
    simp [expandToken, hgate, writeRow]

/-- C11, witness: against a listing with `b.c`, `a.c` and `notes.txt` the token
`*.c` is replaced by `b.c` and `a.c`, and the token `*txt` is stored as it is. -/
theorem glob_gate_witness :
    token_loop listingAC 0 1 (some ['*', '.', 'c']) [] resetCommands 1 =
      (writeRow resetCommands 0 1 [['b', '.', 'c'], ['a', '.', 'c']], 3) ∧
    token_loop listingAC 0 1 (some ['*', 't', 'x', 't']) [] resetCommands 1 =
      (resetCommands.set 0 1 ['*', 't', 'x', 't'], 2) := by
  have h := glob_gate listingAC ['.', 'c'] 0 0 [] resetCommands 1
  have h' := glob_gate listingAC ['t', 'x', 't'] 0 0 [] resetCommands 1
  refine ⟨?_, ?_⟩
  · rw [h.2.1 (by decide) (by decide)]
    rfl
  · rw [h'.2.2 (by decide)]
    rfl

/-- C11, counterexample.  In `ls *txt` the second token starts with `*` and has
the non-empty suffix `txt`; the listing holds the non-hidden name `notes.txt`,
which contains `txt`; yet the argument stored is the literal `*txt` and nothing
follows it. -/
theorem glob_gate_counterexample :
    words lineLsStarTxt = [['l', 's'], ['*', 't', 'x', 't']] ∧
    globNames listingAC ['t', 'x', 't'] = ["notes.txt".toList] ∧
    (parse_line listingAC lineLsStarTxt resetCommands none none).ret = 1 ∧
    (parse_line listingAC lineLsStarTxt resetCommands none none).commands 0 1 =
      some ['*', 't', 'x', 't'] ∧
    (parse_line listingAC lineLsStarTxt resetCommands none none).commands 0 2 = none := by
  refine ⟨by decide, by decide, by decide, by decide, by decide⟩


/-! ## Calls of the builtin dispatcher -/

theorem path_loop_parent (w : World) (forked : Bool) (cmd : Str) (rest : List Str)
    (stdin stdout : Int) (table : List Str) (done : List Action) :
    ∃ tail, (path_loop w forked cmd rest stdin stdout table done).parent = done ++ tail ∧
      ∀ a ∈ tail, a.isBuiltin = false := by
  induction table generalizing done with
  | nil => exact ⟨[], by simp [path_loop], by simp⟩
  | cons dirp more ih =>
    by_cases h : w.file_exists (dirp ++ '/' :: cmd) = true
    · refine ⟨[Action.stat (dirp ++ '/' :: cmd), Action.fork, Action.close stdout, Action.wait],
        by simp [path_loop, h], ?_⟩
      intro a ha
      simp only [List.mem_cons, List.mem_singleton, List.not_mem_nil, or_false] at ha
      rcases ha with h1 | h1 | h1 | h1 <;> subst h1 <;> rfl
    · rw [Bool.not_eq_true] at h
      obtain ⟨tail, ht1, ht2⟩ := ih (done ++ [Action.stat (dirp ++ '/' :: cmd)])
      refine ⟨Action.stat (dirp ++ '/' :: cmd) :: tail, ?_, ?_⟩
      · simp only [path_loop, h, Bool.false_eq_true, if_false, ht1, List.append_assoc,
          List.singleton_append]
      · intro a ha
        rcases List.mem_cons.1 ha with h1 | h1
        · subst h1; rfl
        · exact ht2 a h1

/-- Inside `run_command` the builtin dispatcher is called first and once when
the command does not start with `.` or `/`, and not at all when it does. -/
theorem run_command_builtin_calls (w : World) (forked : Bool) (cmd : Str) (rest : List Str)
    (stdin stdout : Int) :
    ((cmd.head? ≠ some '.' ∧ cmd.head? ≠ some '/') →
      ∃ tail, (run_command w forked cmd rest stdin stdout).parent =
          Action.handle_builtin (cmd :: rest) stdin stdout :: tail ∧
        ∀ a ∈ tail, a.isBuiltin = false) ∧
    ((cmd.head? = some '.' ∨ cmd.head? = some '/') →
      ∀ a ∈ (run_command w forked cmd rest stdin stdout).parent, a.isBuiltin = false) := by
  constructor
  · rintro ⟨hdot, hslash⟩
    unfold run_command
    rw [if_neg (by rintro (h | h) <;> [exact hdot h; exact hslash h])]
    by_cases hb : w.found_builtin (cmd :: rest) = 0
    · rw [if_pos hb]
      obtain ⟨tail, ht1, ht2⟩ := path_loop_parent w forked cmd rest stdin stdout w.path_table
        [Action.handle_builtin (cmd :: rest) stdin stdout]
      exact ⟨tail, by simpa using ht1, ht2⟩
    · rw [if_neg hb]
      by_cases hb1 : w.found_builtin (cmd :: rest) = -1
      · rw [if_pos hb1]
        exact ⟨[], rfl, by simp⟩
      · rw [if_neg hb1]
        exact ⟨[], rfl, by simp⟩
  · intro hdirect
    unfold run_command
    rw [if_pos hdirect]
    by_cases he : w.file_exists cmd = true
    · rw [if_pos he]
      intro a ha
      simp only [List.mem_cons, List.mem_singleton, List.not_mem_nil, or_false] at ha
      rcases ha with h1 | h1 | h1 <;> subst h1 <;> rfl
    · rw [if_neg he]
      intro a ha
      simp only [List.mem_singleton] at ha
      subst ha
      rfl

/-- C12 (amended). The builtin dispatcher is called inside `run_command`, so
once per stage rather than once per pipeline: for every stage of every
pipeline, whatever its index, whose command does not start with `.` or `/`,
`handle_builtin` is the first call `run_command` makes for that stage, before
any `stat`, and it is called once; for a stage whose command starts with `.` or
`/`, stage 0 included, it is not called. -/
theorem builtin_dispatch_per_stage (w : World) (parsed : Nat → Str × List Str) (steps : Nat)
    (infile outfile : Option Str) (fds : FdTable) (j : Nat) (hj : j < steps) :
    ∃ c, (run_pipeline w parsed steps infile outfile fds).calls[j]? = some c ∧
      c.stage = j ∧ (c.cmd, c.rest) = parsed j ∧
      ((c.cmd.head? ≠ some '.' ∧ c.cmd.head? ≠ some '/') →
        ∃ tail, c.result.parent =
            Action.handle_builtin (c.cmd :: c.rest) c.stdin c.stdout :: tail ∧
          ∀ a ∈ tail, a.isBuiltin = false) ∧
      ((c.cmd.head? = some '.' ∨ c.cmd.head? = some '/') →
        ∀ a ∈ c.result.parent, a.isBuiltin = false) := by
  obtain ⟨-, -, hc, -⟩ := run_pipeline_spec w parsed steps infile outfile fds (by omega)
  obtain ⟨c, hc1, hc2, hc3, hc4, -, -⟩ := hc j hj
  refine ⟨c, hc1, hc2, by rw [hc3, hc2], ?_, ?_⟩
  · rw [hc4]
    exact (run_command_builtin_calls w _ c.cmd c.rest c.stdin c.stdout).1
  · rw [hc4]
    exact (run_command_builtin_calls w _ c.cmd c.rest c.stdin c.stdout).2

/-- C12, witness: in `ls | wc` the call for stage 1 starts with
`handle_builtin` on `wc`. -/
theorem builtin_dispatch_per_stage_witness :
    ∃ c, (run_pipeline worldBin rowsLsWc 2 none none fds012).calls[1]? = some c ∧
      c.result.parent.head? = some (Action.handle_builtin ["wc".toList] 3 1) := by
  obtain ⟨c, h1, -, h3, h4, -⟩ :=
    builtin_dispatch_per_stage worldBin rowsLsWc 2 none none fds012 1 (by decide)
  have hc : (run_pipeline worldBin rowsLsWc 2 none none fds012).calls[1]?
      = some ⟨1, "wc".toList, [], 3, 1, run_command worldBin true "wc".toList [] 3 1⟩ := by
    decide
  rw [hc] at h1
  have hcc := Option.some.inj h1
  subst hcc
  obtain ⟨tail, ht, -⟩ := h4 (by decide)
  exact ⟨_, hc, by rw [ht]; rfl⟩

/-- C12, counterexample.  In `ls | wc` stage 1 is passed to the builtin
dispatcher: the calls the shell makes for it start with `handle_builtin` on
`wc`.  In the one-stage pipeline `./prog` stage 0 is not passed to it: the
calls are `stat`, `fork` and `wait`. -/
theorem builtin_dispatch_counterexample :
    (run_pipeline worldBin rowsLsWc 2 none none fds012).calls.map
        (fun c => (c.stage, c.result.parent.head?)) =
      [(0, some (Action.handle_builtin ["ls".toList] 0 4)),
        (1, some (Action.handle_builtin ["wc".toList] 3 1))] ∧
    (run_pipeline worldBin rowsProg 1 none none fds012).calls.map
        (fun c => (c.stage, c.result.parent)) =
      [(0, [Action.stat "./prog".toList, Action.fork, Action.wait])] := by
  refine ⟨by decide, by decide⟩


/-! ## A segment with both redirection operators -/

/-- One pass through the body of the stage loop, in terms of what the segment
contributes. -/
theorem stage_loop_step (dir : List Str) (fuel : Nat) (seg ptr : Str) (i : Nat) (c : Commands)
    (infile outfile : Option Str) :
    stage_loop dir (fuel + 1) (some seg) ptr i c infile outfile =
      stage_loop dir fuel (strtok_r ptr ['|']).1 (strtok_r ptr ['|']).2
        (if stageArgs dir seg = [] then i else i + 1)
        (if stageArgs dir seg = [] then c else writeRow c i 0 (stageArgs dir seg))
        (stageInfile infile seg) (stageOutfile outfile seg) := by
  simp only [stage_loop]
  have hin : (if (strstr seg ['<'] || strstr seg ['>']) && strstr seg ['<'] then
        (strtok_r (strtok_r seg ['<', '>']).2 ['<', ' ', '\n']).1 else infile) =
      stageInfile infile seg := by
    unfold stageInfile
    cases strstr seg ['<'] <;> simp
  have hout : (if (strstr seg ['<'] || strstr seg ['>']) && !strstr seg ['<'] then
        (strtok_r (strtok_r seg ['<', '>']).2 ['>', ' ', '\n']).1 else outfile) =
      stageOutfile outfile seg := by
    unfold stageOutfile
    cases strstr seg ['<'] <;> cases strstr seg ['>'] <;> simp
  have htext : (if strstr seg ['<'] || strstr seg ['>'] then (strtok_r seg ['<', '>']).1
        else none).getD seg = stageText seg := by
    unfold stageText
    split <;> simp
  rw [hin, hout, htext]
  cases hfirst : (strtok_r (stageText seg) [' ', '\n']).1 with
  | none =>
    have hargs : stageArgs dir seg = [] := by
      simp [stageArgs, strtok_r_none _ _ hfirst]
    simp [hargs]
  | some tok =>
    have hargs : stageArgs dir seg ≠ [] := by
      unfold stageArgs
      rw [Ne, flatMap_expandToken_eq_nil, (strtok_r_some _ _ _ hfirst).1]
      simp
    have htl := token_loop_eq dir i ((stageText seg).length + 1) (stageText seg) c 0
      (by omega)
    rw [hfirst] at htl
    simp only [htl, if_neg hargs]
    rfl

/-- A segment that holds both operators is the text before the first operator,
that operator, and a text that holds the other operator. -/
theorem first_operator_split (seg : Str) (hlt : '<' ∈ seg) (hgt : '>' ∈ seg) :
    ∃ op, (op = '<' ∨ op = '>') ∧ seg = leftOf seg ++ op :: rightOf seg ∧
      (op = '<' → '>' ∈ rightOf seg) ∧ (op = '>' → '<' ∈ rightOf seg) := by
  have hsplit := seg_eq_left_append seg
  have hl := not_mem_leftOf seg
  cases hdw : seg.dropWhile (fun c => c != '<' && c != '>') with
  | nil =>
    rw [hdw, List.append_nil] at hsplit
    rw [hsplit] at hlt
    exact absurd hlt hl.1
  | cons op r =>
    have hop : op = '<' ∨ op = '>' := by
      have := List.head_dropWhile_not (fun c => c != '<' && c != '>') seg (by rw [hdw]; simp)
      simp only [hdw, List.head_cons] at this
      by_cases h1 : op = '<'
      · exact Or.inl h1
      · by_cases h2 : op = '>'
        · exact Or.inr h2
        · simp [h1, h2] at this
    have hr : rightOf seg = r := by simp [rightOf, hdw]
    rw [hdw] at hsplit
    rw [hr]
    refine ⟨op, hop, hsplit, ?_, ?_⟩
    · intro h
      subst h
      rw [hsplit] at hgt
      rcases List.mem_append.1 hgt with h1 | h1
      · exact absurd h1 hl.2
      · rcases List.mem_cons.1 h1 with h2 | h2
        · exact absurd h2 (by decide)
        · exact h2
    · intro h
      subst h
      rw [hsplit] at hlt
      rcases List.mem_append.1 hlt with h1 | h1
      · exact absurd h1 hl.1
      · rcases List.mem_cons.1 h1 with h2 | h2
        · exact absurd h2 (by decide)
        · exact h2

/-- C13. For a segment that holds both `<` and `>` and has text before the
first of them, one pass through the body of the stage loop leaves `outfile` as
it was and sets `infile` to the first token, delimited by `<`, space or
newline, of the text after the first operator of the segment (to `NULL` when
there is no such token); the arguments of the stage are the tokens of the text
before that operator.  The first operator is `<` or `>`, whichever comes first,
and the other one lies in the text after it. -/
theorem both_operators_step (dir : List Str) (fuel : Nat) (seg ptr : Str) (i : Nat)
    (c : Commands) (infile outfile : Option Str)
    (hlt : '<' ∈ seg) (hgt : '>' ∈ seg) (hleft : leftOf seg ≠ []) :
    stage_loop dir (fuel + 1) (some seg) ptr i c infile outfile =
      stage_loop dir fuel (strtok_r ptr ['|']).1 (strtok_r ptr ['|']).2
        (if (tokens [' ', '\n'] (leftOf seg)).flatMap (expandToken dir) = [] then i else i + 1)
        (if (tokens [' ', '\n'] (leftOf seg)).flatMap (expandToken dir) = [] then c
          else writeRow c i 0 ((tokens [' ', '\n'] (leftOf seg)).flatMap (expandToken dir)))
        (tokens ['<', ' ', '\n'] (rightOf seg)).head? outfile ∧
    ∃ op, (op = '<' ∨ op = '>') ∧ seg = leftOf seg ++ op :: rightOf seg ∧
      (op = '<' → '>' ∈ rightOf seg) ∧ (op = '>' → '<' ∈ rightOf seg) := by
  refine ⟨?_, first_operator_split seg hlt hgt⟩
  have hs : strstr seg ['<'] = true := (strstr_singleton seg '<').2 hlt
  have hargs : stageArgs dir seg = (tokens [' ', '\n'] (leftOf seg)).flatMap (expandToken dir) := by
    simp [stageArgs, stageText, hs, strtok_r_redir seg hleft]
  have hin : stageInfile infile seg = (tokens ['<', ' ', '\n'] (rightOf seg)).head? := by
    rw [stageInfile, if_pos hs, strtok_r_redir seg hleft, strtok_r_fst]
  have hout : stageOutfile outfile seg = outfile := by
    simp [stageOutfile, hs]
  rw [stage_loop_step, hargs, hin, hout]

/-- C13, witness: `cmd < a > b` gives `infile = a` and `cmd > b < a` gives
`infile = b`; in both `outfile` keeps the value it had. -/
theorem both_operators_step_witness :
    (stage_loop [] 1 (some segInOut) [] 0 resetCommands none none).infile = some ['a'] ∧
    (stage_loop [] 1 (some segInOut) [] 0 resetCommands none none).outfile = none ∧
    (stage_loop [] 1 (some segOutIn) [] 0 resetCommands none (some ['x'])).infile
      = some ['b'] ∧
    (stage_loop [] 1 (some segOutIn) [] 0 resetCommands none (some ['x'])).outfile
      = some ['x'] ∧
    (parse_line [] segInOut resetCommands none none).infile = some ['a'] ∧
    (parse_line [] segInOut resetCommands none none).outfile = none ∧
    (parse_line [] segOutIn resetCommands none none).infile = some ['b'] ∧
    (parse_line [] segOutIn resetCommands none none).outfile = none := by
  have h1 := (both_operators_step [] 0 segInOut [] 0 resetCommands none none
    (by decide) (by decide) (by decide)).1
  have h2 := (both_operators_step [] 0 segOutIn [] 0 resetCommands none (some ['x'])
    (by decide) (by decide) (by decide)).1
  refine ⟨?_, ?_, ?_, ?_, by decide, by decide, by decide, by decide⟩
  · rw [h1]; decide
  · rw [h1]; rfl
  · rw [h2]; decide
  · rw [h2]; rfl


/-! ## The history ring -/

theorem add_history_line_bounds (h : History)
    (hb : 0 ≤ h.idx ∧ h.idx ≤ 49 ∧ 0 ≤ h.valid_entries ∧ h.valid_entries ≤ 50) :
    0 ≤ (add_history_line h).idx ∧ (add_history_line h).idx ≤ 49 ∧
      0 ≤ (add_history_line h).valid_entries ∧ (add_history_line h).valid_entries ≤ 50 := by
  obtain ⟨h1, h2, h3, h4⟩ := hb
  unfold add_history_line
  simp only
  refine ⟨?_, ?_, ?_, ?_⟩ <;> split <;> omega

theorem run_history_bounds (calls : List HistoryCall) (h : History)
    (hb : 0 ≤ h.idx ∧ h.idx ≤ 49 ∧ 0 ≤ h.valid_entries ∧ h.valid_entries ≤ 50) :
    0 ≤ (run_history calls h).idx ∧ (run_history calls h).idx ≤ 49 ∧
      0 ≤ (run_history calls h).valid_entries ∧ (run_history calls h).valid_entries ≤ 50 := by
  induction calls generalizing h with
  | nil => exact hb
  | cons call more ih =>
    cases call with
    | add => exact ih _ (add_history_line_bounds h hb)
    | clear => exact ih _ (by simp [clear_history])

/-- C14, the code at the failing input.  In every history reached from the
empty one by calls of `add_history_line` and `clear_history`, `idx` is in 0..49
and `valid_entries` in 0..50.  But after 51 calls of `add_history_line` the
history is `idx = 1`, `valid_entries = 50`, the start index
`(idx - valid_entries) % 50` is -49, and `print_history` and `save_history`
read the slots -49, -48, ..., 0, of which only the last is a slot of the
array. -/
theorem history_start_negative :
    (∀ calls, 0 ≤ (run_history calls emptyHistory).idx ∧
      (run_history calls emptyHistory).idx ≤ 49 ∧
      0 ≤ (run_history calls emptyHistory).valid_entries ∧
      (run_history calls emptyHistory).valid_entries ≤ 50) ∧
    run_history (List.replicate 51 HistoryCall.add) emptyHistory = ⟨1, 50⟩ ∧
    history_start (run_history (List.replicate 51 HistoryCall.add) emptyHistory) = -49 ∧
    print_history (run_history (List.replicate 51 HistoryCall.add) emptyHistory) =
      (List.range 50).map (fun k => (k : Int) - 49) ∧
    save_history (run_history (List.replicate 51 HistoryCall.add) emptyHistory) =
      (List.range 50).map (fun k => (k : Int) - 49) := by
  refine ⟨fun calls => run_history_bounds calls emptyHistory (by decide), by decide, by decide,
    by decide, by decide⟩


end Thsh
